import Mathlib

/-!
Shallow embedding of the malan forward-time population-genetics engine
(class_Individual.cpp, api_simulate.cpp, api_utility_misc.cpp and the
variance sampler), together with proofs settling the specification claims.

Randomness is modelled by explicit draw streams: a stream of rationals in
[0,1) for the `R::runif(0,1)` calls, and a stream of father indices for the
`sample_person` / `sample_person_weighted` calls.  Machine doubles are
modelled by exact rationals, C++ exceptions by `Except String`.
-/

namespace Malan

/-- A stream of uniform draws, one rational per call of `R::runif(0.0, 1.0)`. -/
abbrev RStream := ℕ → ℚ

/-- Validity of a draw stream: every draw lies in [0, 1). -/
def ValidStream (s : RStream) : Prop := ∀ n, 0 ≤ s n ∧ s n < 1

/-- The constant stream returning 1/2; a convenient concrete valid stream. -/
def halfStream : RStream := fun _ => 1/2

/-- Embedding of the C++ `Individual` class state (class_Individual.cpp).
Pointers to individuals are modelled by pids. -/
structure Individual where
  pid : ℕ
  generation : ℕ
  father : Option ℕ := none
  children : List ℕ := []
  pedigree_id : ℕ := 0
  haplotype : List ℤ := []
  haplotype_set : Bool := false
  haplotype_mutated : Bool := false
deriving Repr, DecidableEq

/-- A population of individuals (the `Population` map); lookup is by pid. -/
structure World where
  inds : List Individual
deriving Repr, DecidableEq

/-- Dereference a pid: find the individual with this pid, if any. -/
def World.find (w : World) (p : ℕ) : Option Individual :=
  w.inds.find? (fun i => i.pid = p)

/-- The `m_father` pointer of the individual with pid `p`. -/
def fatherOf (w : World) (p : ℕ) : Option ℕ :=
  (w.find p).bind Individual.father

/-- The `m_children` list of the individual with pid `p`. -/
def childrenOf (w : World) (p : ℕ) : List ℕ :=
  match w.find p with
  | some i => i.children
  | none => []

/-!  ## Haplotype mutation (class_Individual.cpp lines 190–311)  -/

/-- The per-locus loop body of `Individual::haplotype_mutate`: with
probability `rate` perturb the allele by ±1 (direction from a second draw).
Loci are processed left to right, threading the draw-stream position. -/
def mutate_loci (s : RStream) : List ℤ → List ℚ → ℕ → List ℤ × ℕ
  | [], _, pos => ([], pos)
  | h :: hs, rates, pos =>
    let r := rates.headD 0
    if s pos < r then
      if s (pos+1) < 1/2 then
        let o := mutate_loci s hs rates.tail (pos+2)
        ((h - 1) :: o.1, o.2)
      else
        let o := mutate_loci s hs rates.tail (pos+2)
        ((h + 1) :: o.1, o.2)
    else
      let o := mutate_loci s hs rates.tail (pos+1)
      (h :: o.1, o.2)

/-- `Individual::haplotype_mutate` (class_Individual.cpp lines 190–211).
Note: the source never assigns `m_haplotype_mutated = true`; the flag is
only ever read, so this embedding leaves it untouched as well. -/
def haplotype_mutate (ind : Individual) (rates : List ℚ) (s : RStream) (pos : ℕ) :
    Except String (Individual × ℕ) :=
  if ind.haplotype_set = false then
    .error "Father haplotype not set yet, so cannot mutate"
  else if ind.haplotype.length ≠ rates.length then
    .error "Number of loci specified in haplotype must equal number of mutation rates specified"
  else if ind.haplotype_mutated = true then
    .error "Father haplotype already set and mutated"
  else
    let o := mutate_loci s ind.haplotype rates pos
    .ok ({ ind with haplotype := o.1 }, o.2)

/-- The per-locus loop body of `Individual::haplotype_mutate_ladder_bounded`
(class_Individual.cpp lines 225–274): when the mutation fires, an allele
strictly outside the ladder is a fatal error; at `ladder_min` the step is
forced upward, at `ladder_max` forced downward, otherwise a direction draw
decides. -/
def ladder_mutate_loci (s : RStream) :
    List ℤ → List ℚ → List ℤ → List ℤ → ℕ → Except String (List ℤ × ℕ)
  | [], _, _, _, pos => .ok ([], pos)
  | h :: hs, rates, mins, maxs, pos =>
    let r := rates.headD 0
    let mn := mins.headD 0
    let mx := maxs.headD 0
    if s pos < r then
      if h < mn then .error "Haplotype locus lower than ladder minimum"
      else if h > mx then .error "Haplotype locus higher than ladder minimum"
      else if h = mn then
        match ladder_mutate_loci s hs rates.tail mins.tail maxs.tail (pos+1) with
        | .error e => .error e
        | .ok o => .ok ((mn + 1) :: o.1, o.2)
      else if h = mx then
        match ladder_mutate_loci s hs rates.tail mins.tail maxs.tail (pos+1) with
        | .error e => .error e
        | .ok o => .ok ((mx - 1) :: o.1, o.2)
      else if s (pos+1) < 1/2 then
        match ladder_mutate_loci s hs rates.tail mins.tail maxs.tail (pos+2) with
        | .error e => .error e
        | .ok o => .ok ((h - 1) :: o.1, o.2)
      else
        match ladder_mutate_loci s hs rates.tail mins.tail maxs.tail (pos+2) with
        | .error e => .error e
        | .ok o => .ok ((h + 1) :: o.1, o.2)
    else
      match ladder_mutate_loci s hs rates.tail mins.tail maxs.tail (pos+1) with
      | .error e => .error e
      | .ok o => .ok (h :: o.1, o.2)

/-- `Individual::haplotype_mutate_ladder_bounded` (class_Individual.cpp
lines 214–275). -/
def haplotype_mutate_ladder_bounded (ind : Individual) (rates : List ℚ)
    (ladder_min ladder_max : List ℤ) (s : RStream) (pos : ℕ) :
    Except String (Individual × ℕ) :=
  if ind.haplotype_set = false then
    .error "Father haplotype not set yet, so cannot mutate"
  else if ind.haplotype.length ≠ rates.length then
    .error "Number of loci specified in haplotype must equal number of mutation rates specified"
  else if ind.haplotype_mutated = true then
    .error "Father haplotype already set and mutated"
  else
    match ladder_mutate_loci s ind.haplotype rates ladder_min ladder_max pos with
    | .error e => .error e
    | .ok o => .ok ({ ind with haplotype := o.1 }, o.2)

/-- `Individual::set_haplotype` (class_Individual.cpp lines 282–285): stores
the haplotype and raises `m_haplotype_set`; it does not touch
`m_haplotype_mutated`. -/
def set_haplotype (ind : Individual) (h : List ℤ) : Individual :=
  { ind with haplotype := h, haplotype_set := true }

/-!  ## Autosomal genotype probabilities (api_simulate.cpp lines 270–306)  -/

/-- The nested loop of `calc_autosomal_genotype_probs`: for `i` from 0 and
`j ≤ i` emit `θ·p_i + (1−θ)·p_i²` on the diagonal and `(1−θ)·2·p_i·p_j`
off the diagonal, in the flattened lower-triangular order. -/
def genoProbs (theta : ℚ) (ps : List ℚ) : List ℚ :=
  (List.range ps.length).flatMap (fun i =>
    (List.range (i+1)).map (fun j =>
      if i = j then theta * ps.getD i 0 + (1 - theta) * ps.getD i 0 * ps.getD i 0
      else (1 - theta) * 2 * ps.getD i 0 * ps.getD j 0))

/-- `calc_autosomal_genotype_probs` (api_simulate.cpp lines 270–306):
validates the inputs, normalises the allele distribution by its sum, and
returns the flattened genotype distribution. -/
def calc_autosomal_genotype_probs (allele_dist : List ℚ) (theta : ℚ) :
    Except String (List ℚ) :=
  if allele_dist.any (fun p => decide (p < 0)) || allele_dist.any (fun p => decide (p > 1)) then
    .error "allele_dist elements must be between 0 and 1, both included"
  else if theta < 0 ∨ theta > 1 then
    .error "theta must be between 0 and 1, both included"
  else
    let ps_sum := allele_dist.sum
    let ps := allele_dist.map (fun p => p / ps_sum)
    .ok (genoProbs theta ps)

/-- Sum of the first `n` entries of `ps` (0-padded), used to state the
row-sum lemmas for `genoProbs`. -/
def idxSum (ps : List ℚ) (n : ℕ) : ℚ :=
  ((List.range n).map (fun j => ps.getD j 0)).sum

/-!  ## Autosomal propagation (class_Individual.cpp lines 387–485)  -/

/-- `possible_mutate_index` (class_Individual.cpp lines 387–412): rejects
`max ≤ 0` before looking at any draw; otherwise with probability
`mutation_rate` step the allele index, bouncing at 0 and at `max`. -/
def possible_mutate_index (index : ℤ) (mutation_rate : ℚ) (mx : ℤ)
    (s : RStream) (pos : ℕ) : Except String (ℤ × ℕ) :=
  if mx ≤ 0 then .error "max must be at least 1"
  else if s pos ≥ mutation_rate then .ok (index, pos + 1)
  else if index = 0 then .ok (1, pos + 1)
  else if index = mx then .ok (mx - 1, pos + 1)
  else if s (pos+1) < 1/2 then .ok (index - 1, pos + 2)
  else .ok (index + 1, pos + 2)

/-- The linear scan for the maternal allele in `pass_autosomal_to_children`
(class_Individual.cpp lines 454–461): the first index `i ≥ 1` with
`u ≤ cumdist[i]`, if any. -/
def scanFrom (u : ℚ) : List ℚ → ℕ → Option ℕ
  | [], _ => none
  | c :: cs, i => if u ≤ c then some i else scanFrom u cs (i+1)

/-- Replace an individual in the population (pointer mutation of `*child`). -/
def World.store (w : World) (ind : Individual) : World :=
  ⟨w.inds.map (fun i => if i.pid = ind.pid then ind else i)⟩

/-- The per-child body of `Individual::pass_autosomal_to_children`
(class_Individual.cpp lines 419–484), excluding the recursive descent:
draw the paternal allele from the father haplotype, sample the maternal
allele from the conditional cumulative distribution, mutate both indices,
sort, and store the haplotype on the child. -/
def autosomal_child_geno (selfHap : List ℤ) (cumdists : List (List ℚ))
    (mutation_rate : ℚ) (s : RStream) (pos : ℕ) : Except String (List ℤ × ℕ) :=
  let father_allele := if s pos < 1/2 then selfHap.getD 0 0 else selfHap.getD 1 0
  let cumdist := cumdists.getD father_allele.toNat []
  let u := s (pos + 1)
  let alleles_count := cumdist.length
  let mother_allele : ℤ :=
    if u > cumdist.getD 0 0 then ((scanFrom u (cumdist.drop 1) 1).getD 0 : ℕ) else 0
  let mx : ℤ := (alleles_count : ℤ) - 1
  match possible_mutate_index father_allele mutation_rate mx s (pos + 2) with
  | .error e => .error e
  | .ok g0 =>
    match possible_mutate_index mother_allele mutation_rate mx s g0.2 with
    | .error e => .error e
    | .ok g1 =>
      if g1.1 ≤ g0.1 then .ok ([g1.1, g0.1], g1.2)
      else .ok ([g0.1, g1.1], g1.2)

/-- `Individual::pass_autosomal_to_children` (class_Individual.cpp lines
414–485), with explicit fuel for the recursive descent.  The loop walks the
children pids; a dangling child pid (impossible in a well-formed population,
undefined behaviour in the C++) is reported as an error. -/
def pass_autosomal_to_children (cumdists : List (List ℚ)) (mutation_rate : ℚ)
    (s : RStream) :
    ℕ → Bool → World → Individual → List ℕ → ℕ → Except String (World × ℕ)
  | _, _, w, _, [], pos => .ok (w, pos)
  | 0, _, _, _, _ :: _, _ => .error "out of fuel"
  | fuel+1, recursive, w, self, cpid :: rest, pos =>
    match w.find cpid with
    | none => .error "null child"
    | some child =>
      match autosomal_child_geno self.haplotype cumdists mutation_rate s pos with
      | .error e => .error e
      | .ok g =>
        let child1 := set_haplotype child g.1
        let w1 := w.store child1
        let afterRec : Except String (World × ℕ) :=
          if recursive then
            pass_autosomal_to_children cumdists mutation_rate s fuel recursive w1
              child1 child1.children g.2
          else .ok (w1, g.2)
        match afterRec with
        | .error e => .error e
        | .ok o =>
          pass_autosomal_to_children cumdists mutation_rate s (fuel+1) recursive o.1
            self rest o.2
termination_by fuel _ _ _ l _ => (fuel, l.length)

/-!  ## Meiotic distance (class_Individual.cpp lines 97–182)  -/

/-- The traversal scratch state: the `m_dijkstra_visited` marks, the
`m_dijkstra_distance` counters, and the `dist` output cell. -/
structure DState where
  visited : List ℕ
  dist : ℕ → ℤ
  res : ℤ

/-- `Individual::dijkstra_tick_distance(step)` on the individual `u`. -/
def tick (s : DState) (u : ℕ) (m : ℤ) : DState :=
  { s with dist := fun v => if v = u then s.dist v + m else s.dist v }

/-- The neighbour list the traversal walks from `u`: the father pointer
first, then the children in order (class_Individual.cpp lines 140–151). -/
def neighborsOf (w : World) (u : ℕ) : List ℕ :=
  (fatherOf w u).toList ++ childrenOf w u

/-- The neighbour loop of `meiosis_dist_tree_internal`: tick each neighbour
by `m` and recurse into it via `step`. -/
def processNbrs (step : ℕ → DState → DState) : List ℕ → ℤ → DState → DState
  | [], _, s => s
  | n :: rest, m, s => processNbrs step rest m (step n (tick s n m))

/-- `Individual::meiosis_dist_tree_internal` (class_Individual.cpp lines
126–152), fuel-indexed: at the target record its distance; bounce off
visited nodes; otherwise mark, tick by one, and recurse into every
neighbour after ticking it by the current distance. -/
def internal (w : World) (target : ℕ) : ℕ → ℕ → DState → DState
  | 0, _, s => s
  | fuel+1, u, s =>
    if u = target then { s with res := s.dist u }
    else if u ∈ s.visited then s
    else
      let s1 := tick { s with visited := u :: s.visited } u 1
      processNbrs (internal w target fuel) (neighborsOf w u) (s1.dist u) s1

/-- The freshly reset scratch state (`dijkstra_reset` over the whole
pedigree, plus `dist = 0`). -/
def dstate0 : DState := ⟨[], fun _ => 0, 0⟩

/-- `Individual::meiosis_dist_tree` (class_Individual.cpp lines 155–182):
guards, the cross-pedigree −1, then the traversal from `dest` searching
for `self`. -/
def meiosis_dist_tree (w : World) (self : Individual) (dest : Option Individual) :
    Except String ℤ :=
  if self.pedigree_id = 0 then .error "this pedigree is not set"
  else
    match dest with
    | none => .error "dest is NULL"
    | some d =>
      if d.pedigree_id = 0 then .error "dest pedigree is not set"
      else if self.pedigree_id ≠ d.pedigree_id then .ok (-1)
      else .ok ((internal w self.pid (w.inds.length + 1) d.pid dstate0).res)

/-!  ### Spanning trees of a pedigree

To state that two individuals lie in the same pedigree, whose father→child
edges form a tree (§3 invariant of the spec), we use explicit rose trees
matched against the population's pointer structure. -/

mutual
/-- A rose tree of pids: the pedigree graph unfolded from a chosen root. -/
inductive RTree : Type where
  | node : ℕ → RForest → RTree
deriving Repr, DecidableEq

/-- A list of pid rose trees. -/
inductive RForest : Type where
  | fnil : RForest
  | fcons : RTree → RForest → RForest
deriving Repr, DecidableEq
end

/-- Root pid of a rose tree. -/
def RTree.root : RTree → ℕ
  | .node u _ => u

mutual
/-- All pids of a rose tree, preorder. -/
def RTree.pids : RTree → List ℕ
  | .node u f => u :: f.pids

/-- All pids of a forest. -/
def RForest.pids : RForest → List ℕ
  | .fnil => []
  | .fcons t f => t.pids ++ f.pids
end

mutual
/-- Number of nodes of a rose tree. -/
def RTree.size : RTree → ℕ
  | .node _ f => f.size + 1

/-- Number of nodes of a forest. -/
def RForest.size : RForest → ℕ
  | .fnil => 0
  | .fcons t f => t.size + f.size
end

/-- The roots of the trees of a forest. -/
def RForest.roots : RForest → List ℕ
  | .fnil => []
  | .fcons t f => t.root :: f.roots

mutual
/-- Depth of pid `a` in a rose tree (edge count from the root), if present. -/
def RTree.depthIn (a : ℕ) : RTree → Option ℕ
  | .node u f => if u = a then some 0 else (RForest.depthIn a f).map (· + 1)

/-- First depth of pid `a` among the trees of a forest. -/
def RForest.depthIn (a : ℕ) : RForest → Option ℕ
  | .fnil => none
  | .fcons t f =>
    match RTree.depthIn a t with
    | some d => some d
    | none => RForest.depthIn a f
end

mutual
/-- `matchesB w par T`: the rose tree `T` is the unfolding of the pedigree
graph of `w` from `T.root`, entered from the neighbour `par` (none at the
global root): the subtree roots are exactly the neighbours of the node
other than `par`, in order. -/
def matchesB (w : World) : Option ℕ → RTree → Bool
  | par, .node u f =>
    decide ((neighborsOf w u).filter (fun n => ¬ par = some n) = f.roots)
      && matchesForestB w u f

/-- All trees of the forest match, with parent `u`. -/
def matchesForestB (w : World) (u : ℕ) : RForest → Bool
  | .fnil => true
  | .fcons t f => matchesB w (some u) t && matchesForestB w u f
end

/-- Undirected father–child adjacency between pids (the edges of the
pedigree graph). -/
def linked (w : World) (x y : ℕ) : Prop :=
  fatherOf w x = some y ∨ fatherOf w y = some x

instance (w : World) (x y : ℕ) : Decidable (linked w x y) := by
  unfold linked; infer_instance

/-- `w` has consistent links: every stored father pointer is mirrored in the
father's children list (the construction of `add_child`,
class_Individual.cpp lines 39–42). -/
def wfLinksB (w : World) : Bool :=
  w.inds.all (fun i =>
    match i.father with
    | none => true
    | some fp => (childrenOf w fp).contains i.pid)

/-- A walk in the pedigree graph from `x` to `y`: consecutive entries are
father–child linked, no pid repeats. -/
def IsLinkPath (w : World) (q : List ℕ) (x y : ℕ) : Prop :=
  q.Chain' (linked w) ∧ q.head? = some x ∧ q.getLast? = some y ∧ q.Nodup

/-!  ## LCA path (class_Individual.cpp lines 333–384)  -/

/-- The father chain upward from `p` (fuel-bounded): `p`, its father, its
grandfather, … until a missing father pointer. -/
def ancestor_chain (w : World) : ℕ → ℕ → List ℕ
  | 0, p => [p]
  | fuel+1, p =>
    match fatherOf w p with
    | none => [p]
    | some fp => p :: ancestor_chain w fuel fp

/-- Modelled from the spec: `find_path_from_root_to_dest` is declared in the
repository's headers but its definition is not under src/; per §4.4.2 it
finds "the path from the pedigree root to a", failing when no such path
exists.  In the tree model that path is the reversed father chain of the
destination, and it exists exactly when that chain reaches the root. -/
def find_path_from_root_to_dest (w : World) (root dest : ℕ) : Option (List ℕ) :=
  let ch := ancestor_chain w w.inds.length dest
  if ch.getLast? = some root then some ch.reverse else none

/-- The LCA scan of `calculate_path_to` (class_Individual.cpp lines
367–372): the length of the longest common prefix of the two root paths,
bounded by either length. -/
def lcaScan : List ℕ → List ℕ → ℕ
  | x :: xs, y :: ys => if x = y then lcaScan xs ys + 1 else 0
  | _, _ => 0

/-- `Individual::calculate_path_to` (class_Individual.cpp lines 333–384).
`root` is the root pid of `self`'s pedigree (`get_pedigree()->get_root()`).
Cross-pedigree pairs yield the empty path; a root path that cannot be found
is an error; the result is the LCA followed by the two downward branches. -/
def calculate_path_to (w : World) (root : ℕ) (self : Individual)
    (dest : Option Individual) : Except String (List ℕ) :=
  if self.pedigree_id = 0 then .error "this pedigree is not set"
  else
    match dest with
    | none => .error "dest is NULL"
    | some d =>
      if d.pedigree_id = 0 then .error "dest pedigree is not set"
      else if self.pedigree_id ≠ d.pedigree_id then .ok []
      else
        match find_path_from_root_to_dest w root self.pid with
        | none => .error "Could not find path between root and this"
        | some path_this =>
          match find_path_from_root_to_dest w root d.pid with
          | none => .error "Could not find path between root and dest"
          | some path_dest =>
            let k := lcaScan path_this path_dest
            if k = 0 then .error "LCA index cannot be 0"
            else .ok (path_this.getD (k-1) 0 :: (path_this.drop k ++ path_dest.drop k))

/-!  ## The genealogy sampler (api_simulate.cpp lines 21–237 and the
variance sampler `sample_geneology_variance`)

Both samplers differ only in how the father slot index is drawn (uniform
`sample_person` versus `sample_person_weighted`); the draw is abstracted as
a stream of slot indices below, so one embedding covers both.  Verbose
tables and progress reporting have no effect on the simulation state and
are omitted. -/

/-- Modify the `i`-th entry of a list in place, if present. -/
def modifyAt : List α → ℕ → (α → α) → List α
  | [], _, _ => []
  | x :: xs, 0, f => f x :: xs
  | x :: xs, n+1, f => x :: modifyAt xs n f

/-- Number of non-null slots. -/
def countSomes (l : List (Option α)) : ℕ := (l.filterMap id).length

/-- Result of one pass over the children generation. -/
structure PassOut where
  kids : List (Option Individual)
  fathers : List (Option Individual)
  nf : ℕ
  nextPid : ℕ
  pos : ℕ
deriving Repr

/-- The inner loop of the sampler (api_simulate.cpp lines 133–162): for each
non-null child draw a father slot, create the father on first use
(generation `g`, fresh pid, no father, no children, counted as a new
founder), then link child→father and append the child to the father's
children. -/
def processChildren (idxStream : ℕ → ℕ) (g : ℕ) :
    List (Option Individual) → List (Option Individual) → ℕ → ℕ → ℕ → PassOut
  | [], fathers, nf, np, pos => ⟨[], fathers, nf, np, pos⟩
  | none :: rest, fathers, nf, np, pos =>
    let o := processChildren idxStream g rest fathers nf np pos
    { o with kids := none :: o.kids }
  | some c :: rest, fathers, nf, np, pos =>
    let j := idxStream pos
    let created := (fathers.getD j none).isNone
    let fathers1 :=
      if created then fathers.set j (some ⟨np, g, none, [], 0, [], false, false⟩)
      else fathers
    let np1 := if created then np + 1 else np
    let nf1 := if created then nf + 1 else nf
    let fpid :=
      match fathers1.getD j none with
      | some f => f.pid
      | none => 0
    let fathers2 := modifyAt fathers1 j (fun of =>
      of.map (fun f => { f with children := f.children ++ [c.pid] }))
    let c1 := { c with father := some fpid }
    let o := processChildren idxStream g rest fathers2 nf1 np1 (pos + 1)
    { o with kids := some c1 :: o.kids }

/-- The mutable state of the sampler's while loop. -/
structure SamplerSt where
  children : List (Option Individual)
  doneInds : List Individual
  foundersLeft : ℕ
  gen : ℕ
  nextPid : ℕ
  pos : ℕ
deriving Repr

/-- One iteration of the sampler's while loop (api_simulate.cpp lines
111–190): clear the fathers generation, run the inner loop, advance. -/
def sampler_step (idxStream : ℕ → ℕ) (M : ℕ) (st : SamplerSt) : SamplerSt :=
  let o := processChildren idxStream st.gen st.children (List.replicate M none) 0
    st.nextPid st.pos
  { children := o.fathers
    doneInds := st.doneInds ++ o.kids.filterMap id
    foundersLeft := o.nf
    gen := st.gen + 1
    nextPid := o.nextPid
    pos := o.pos }

/-- The while-loop condition (api_simulate.cpp line 111): in fixed mode run
until `generation < generations` fails, in sentinel mode until at most one
founder is left. -/
def loopCond (generations : ℤ) (st : SamplerSt) : Bool :=
  if generations = -1 then decide (1 < st.foundersLeft)
  else decide ((st.gen : ℤ) < generations)

/-- The sampler's while loop, fuel-bounded; the flag records whether the
loop condition became false (the C++ loop exited). -/
def samplerLoop (idxStream : ℕ → ℕ) (M : ℕ) (generations : ℤ) :
    ℕ → SamplerSt → SamplerSt × Bool
  | 0, st => (st, !loopCond generations st)
  | fuel+1, st =>
    if loopCond generations st then
      samplerLoop idxStream M generations fuel (sampler_step idxStream M st)
    else (st, true)

/-- Generation 0 (api_simulate.cpp lines 77–92): `M` fresh individuals with
pids 1..M, generation 0, no father. -/
def initSt (M : ℕ) : SamplerSt :=
  { children := (List.range M).map (fun i => some ⟨i+1, 0, none, [], 0, [], false, false⟩)
    doneInds := []
    foundersLeft := M
    gen := 1
    nextPid := M + 1
    pos := 0 }

/-- The result record of `sample_geneology`. -/
structure SamplerResult where
  population : List Individual
  generations : ℕ
  founders : ℕ
  finalGen : List Individual
  terminated : Bool
deriving Repr

/-- `sample_geneology` (api_simulate.cpp lines 21–237): argument guards,
then the loop from generation 0.  `generations = -1` is sentinel mode
("until one founder"). -/
def sample_geneology (M : ℕ) (generations : ℤ) (idxStream : ℕ → ℕ) (fuel : ℕ) :
    Except String SamplerResult :=
  if M ≤ 1 then .error "Please specify population_size > 1"
  else if generations < -1 ∨ generations = 0 then
    .error "Please specify generations as -1 (for simulation to 1 founder) or > 0"
  else
    let o := samplerLoop idxStream M generations fuel (initSt M)
    .ok { population := o.1.doneInds ++ o.1.children.filterMap id
          generations := o.1.gen
          founders := o.1.foundersLeft
          finalGen := o.1.children.filterMap id
          terminated := o.2 }

/-!  ## Concrete instances used in counterexamples and witnesses  -/

/-- An individual with haplotype [5] set, for the ladder scenarios. -/
def ladder5Ind : Individual :=
  { pid := 1, generation := 0, haplotype := [5], haplotype_set := true }

/-- An individual whose haplotype was never set. -/
def unsetInd : Individual := { pid := 1, generation := 0 }

/-- An individual that went through `set_haplotype`. -/
def c8Ind : Individual := set_haplotype { pid := 2, generation := 0 } [5]

/-- An individual in pedigree 1. -/
def pedA : Individual := { pid := 1, generation := 0, pedigree_id := 1 }

/-- An individual in pedigree 2. -/
def pedB : Individual := { pid := 2, generation := 0, pedigree_id := 2 }

/-- The empty population. -/
def wEmpty : World := ⟨[]⟩

/-- Grandfather of the three-member demo pedigree (spec §8 scenario 4). -/
def indG : Individual :=
  { pid := 1, generation := 2, father := none, children := [2], pedigree_id := 1 }

/-- Middle individual of the three-member demo pedigree. -/
def indC : Individual :=
  { pid := 2, generation := 1, father := some 1, children := [3], pedigree_id := 1 }

/-- Grandchild of the three-member demo pedigree. -/
def indGC : Individual :=
  { pid := 3, generation := 0, father := some 2, children := [], pedigree_id := 1 }

/-- The three-member demo population G — C — GC. -/
def wPed : World := ⟨[indG, indC, indGC]⟩

/-- The demo pedigree unfolded from GC. -/
def treeFromGC : RTree :=
  .node 3 (.fcons (.node 2 (.fcons (.node 1 .fnil) .fnil)) .fnil)

/-- The demo pedigree unfolded from G. -/
def treeFromG : RTree :=
  .node 1 (.fcons (.node 2 (.fcons (.node 3 .fnil) .fnil)) .fnil)

/-- The demo pedigree unfolded from C. -/
def treeFromC : RTree :=
  .node 2 (.fcons (.node 1 .fnil) (.fcons (.node 3 .fnil) .fnil))

/-- The fathers list evolves append-only during one pass: existing fathers
keep pid, generation and father, and their children lists only grow. -/
def FEvol (f₀ f₁ : List (Option Individual)) : Prop :=
  ∀ j fa, f₀.getD j none = some fa →
    ∃ fb, f₁.getD j none = some fb ∧ fb.pid = fa.pid ∧
      fb.generation = fa.generation ∧ fb.father = fa.father ∧
      ∀ c ∈ fa.children, c ∈ fb.children

/-- How one pass transforms a child slot: null slots stay null; a child
gets its father pointer set to a father present in the final fathers list,
of generation `g`, whose children list contains the child. -/
def ChildRel (g : ℕ) (F : List (Option Individual)) :
    Option Individual → Option Individual → Prop :=
  fun a b =>
    (a = none ∧ b = none) ∨
    ∃ c fp, a = some c ∧ b = some { c with father := some fp } ∧
      ∃ f j, F.getD j none = some f ∧ f.pid = fp ∧ f.generation = g ∧
        c.pid ∈ f.children

/-- Invariant of the sentinel-mode loop: the founders counter equals the
number of live slots, is at least one, and the current oldest generation
has no fathers. -/
def SentinelInv (st : SamplerSt) : Prop :=
  st.foundersLeft = countSomes st.children ∧ 1 ≤ st.foundersLeft ∧
  ∀ f, some f ∈ st.children → f.father = none

/-- Invariant of the sampler loop for the pedigree links: every finalized
individual with a father points at an individual one generation older whose
children list contains it, and the current oldest generation is fatherless
with the right generation index. -/
def PopInv (st : SamplerSt) : Prop :=
  (∀ x ∈ st.doneInds, ∀ fp, x.father = some fp →
    ∃ f, (f ∈ st.doneInds ∨ f ∈ st.children.filterMap id) ∧ f.pid = fp ∧
      f.generation = x.generation + 1 ∧ x.pid ∈ f.children) ∧
  (∀ c ∈ st.children.filterMap id, c.father = none ∧ c.generation + 1 = st.gen)

/-- The result of `sample_geneology 2 (-1) (fun _ => 0) 2`: both children
pick father slot 0, one father (pid 3) is created, and the loop stops with
one founder. -/
def demoRes : SamplerResult :=
  { population :=
      [⟨1, 0, some 3, [], 0, [], false, false⟩,
       ⟨2, 0, some 3, [], 0, [], false, false⟩,
       ⟨3, 1, none, [1, 2], 0, [], false, false⟩]
    generations := 2
    founders := 1
    finalGen := [⟨3, 1, none, [1, 2], 0, [], false, false⟩]
    terminated := true }

/-- Membership of a tree in a forest. -/
def RForest.MemT (t : RTree) : RForest → Prop
  | .fnil => False
  | .fcons k ks => t = k ∨ RForest.MemT t ks

/-- Outcome of one `meiosis_dist_tree_internal` call entered at the root of
the matching tree `T` from neighbour `par`: the visited set grows only
inside `T`, the target is never marked, distances outside `T` and away from
`par` are untouched, and the result cell is written exactly when the target
lies in `T`, with the entry distance of the root plus the target's depth. -/
def ExploreOut (a : ℕ) (par : Option ℕ) (T : RTree) (s s' : DState) : Prop :=
  (∀ x ∈ s.visited, x ∈ s'.visited) ∧
  (∀ x ∈ s'.visited, x ∈ s.visited ∨ x ∈ T.pids) ∧
  a ∉ s'.visited ∧
  (∀ v, v ∉ T.pids → par ≠ some v → s'.dist v = s.dist v) ∧
  (∀ d, RTree.depthIn a T = some d → s'.res = s.dist T.root + d) ∧
  (RTree.depthIn a T = none → s'.res = s.res)

/-- Outcome of the neighbour loop of a node `u` (with parent `par`) over the
kid forest `ks`, all ticked by `m`. -/
def ExploreForestOut (a u : ℕ) (par : Option ℕ) (ks : RForest) (m : ℤ)
    (s s' : DState) : Prop :=
  (∀ x ∈ s.visited, x ∈ s'.visited) ∧
  (∀ x ∈ s'.visited, x ∈ s.visited ∨ x ∈ ks.pids) ∧
  a ∉ s'.visited ∧
  (∀ v, v ∉ ks.pids → par ≠ some v → v ≠ u → s'.dist v = s.dist v) ∧
  (∀ d, RForest.depthIn a ks = some d → s'.res = m + d) ∧
  (RForest.depthIn a ks = none → s'.res = s.res)

/-!  # Theorems  -/

/-- C3: for p = [0.2, 0.3, 0.5] and θ = 0.1, `calc_autosomal_genotype_probs`
does NOT return a vector within 1e-9 of the claimed [0.052, 0.108, 0.093,
0.180, 0.270, 0.275]: already the first entry is exactly 0.056, which is
0.004 away from the claimed 0.052. -/
theorem C3_counterexample :
    calc_autosomal_genotype_probs [1/5, 3/10, 1/2] (1/10)
      = .ok [7/125, 27/250, 111/1000, 9/50, 27/100, 11/40] ∧
    ¬ |(7/125 : ℚ) - 52/1000| ≤ 1/1000000000 := by
  constructor
  · simp [calc_autosomal_genotype_probs, genoProbs, List.range_succ]
    norm_num
  · norm_num [abs_le]

/-- C3 (amended): for p = [0.2, 0.3, 0.5] and θ = 0.1 the genotype vector in
order 00,10,11,20,21,22 is exactly [0.056, 0.108, 0.111, 0.180, 0.270,
0.275], and it sums to 1. -/
theorem C3_genotype_probs :
    calc_autosomal_genotype_probs [1/5, 3/10, 1/2] (1/10)
      = .ok [7/125, 27/250, 111/1000, 9/50, 27/100, 11/40] ∧
    ([7/125, 27/250, 111/1000, 9/50, 27/100, 11/40] : List ℚ).sum = 1 := by
  constructor
  · simp [calc_autosomal_genotype_probs, genoProbs, List.range_succ]
    norm_num
  · norm_num

/-- C1: with haplotype [5], mutation rate 1 and the degenerate ladder
[5..5], the ladder-bounded mutation does NOT fail: it succeeds and sets the
allele to 6 (the `== ladder_min` branch is taken first). -/
theorem C1_counterexample :
    haplotype_mutate_ladder_bounded ladder5Ind [1] [5] [5] halfStream 0
      = .ok ({ ladder5Ind with haplotype := [6] }, 1) := by
  simp [haplotype_mutate_ladder_bounded, ladder_mutate_loci, ladder5Ind, halfStream]
  norm_num

/-- C1 (amended): with haplotype [5] and mutation rate 1, the ladder-bounded
mutation never raises an error for ladder [5..5]: for every valid draw
stream it deterministically sets the allele to 6 (stepping above
ladder_max); with ladder [5..6] it likewise deterministically sets the
allele to 6. -/
theorem C1_ladder_bounded (s : RStream) (hs : ValidStream s) (pos : ℕ) :
    haplotype_mutate_ladder_bounded ladder5Ind [1] [5] [5] s pos
      = .ok ({ ladder5Ind with haplotype := [6] }, pos + 1) ∧
    haplotype_mutate_ladder_bounded ladder5Ind [1] [5] [6] s pos
      = .ok ({ ladder5Ind with haplotype := [6] }, pos + 1) := by
  have h1 : s pos < (1 : ℚ) := (hs pos).2
  constructor <;>
    simp [haplotype_mutate_ladder_bounded, ladder_mutate_loci, ladder5Ind, h1]

/-- C1 witness: the amended ladder behaviour evaluated on the constant 1/2
stream at position 0. -/
theorem C1_ladder_bounded_witness :
    haplotype_mutate_ladder_bounded ladder5Ind [1] [5] [5] halfStream 0
      = .ok ({ ladder5Ind with haplotype := [6] }, 1) ∧
    haplotype_mutate_ladder_bounded ladder5Ind [1] [5] [6] halfStream 0
      = .ok ({ ladder5Ind with haplotype := [6] }, 1) :=
  C1_ladder_bounded halfStream
    (fun _ => by constructor <;> norm_num [halfStream]) 0

/-- C8: mutating an unset haplotype fails, and the `m_haplotype_mutated`
guard exists, but the flag is never raised by the source: after setting a
haplotype and mutating it once, the flag is still false and a second
`haplotype_mutate` call succeeds and mutates again instead of failing. -/
theorem C8_mutated_flag_never_set :
    haplotype_mutate unsetInd [] halfStream 0
      = .error "Father haplotype not set yet, so cannot mutate" ∧
    haplotype_mutate { c8Ind with haplotype_mutated := true } [1] halfStream 0
      = .error "Father haplotype already set and mutated" ∧
    haplotype_mutate c8Ind [1] halfStream 0
      = .ok ({ c8Ind with haplotype := [6] }, 2) ∧
    ({ c8Ind with haplotype := [6] } : Individual).haplotype_mutated = false ∧
    haplotype_mutate { c8Ind with haplotype := [6] } [1] halfStream 2
      = .ok ({ c8Ind with haplotype := [7] }, 4) := by
  refine ⟨rfl, ?_, ?_, rfl, ?_⟩ <;>
    · simp [haplotype_mutate, mutate_loci, c8Ind, set_haplotype, halfStream]
      try norm_num

/-- C10: the per-allele mutation helper rejects `max ≤ 0` before consulting
the mutation rate, so autosomal propagation with allele count 1 (mutation
index bound 0) errors for every mutation rate, every draw stream and every
individual with at least one child. -/
theorem C10_allele_count_one_errors :
    (∀ (index : ℤ) (rate : ℚ) (s : RStream) (pos : ℕ),
      possible_mutate_index index rate 0 s pos = .error "max must be at least 1") ∧
    (∀ (w : World) (self child : Individual) (c0 rate : ℚ) (s : RStream)
      (pos f : ℕ) (recursive : Bool) (cpid : ℕ) (rest : List ℕ),
      w.find cpid = some child →
      self.haplotype = [0, 0] →
      pass_autosomal_to_children [[c0]] rate s (f+1) recursive w self (cpid :: rest) pos
        = .error "max must be at least 1") := by
  constructor
  · intro index rate s pos
    simp [possible_mutate_index]
  · intro w self child c0 rate s pos f recursive cpid rest hfind hhap
    simp [pass_autosomal_to_children, hfind, autosomal_child_geno, hhap,
      possible_mutate_index]

/-- C10 witness: the helper and the propagation evaluated at a concrete
one-allele configuration. -/
theorem C10_allele_count_one_errors_witness :
    possible_mutate_index 0 (1/2) 0 halfStream 0 = .error "max must be at least 1" ∧
    pass_autosomal_to_children [[1]] 0 halfStream 1 false
      (⟨[{ pid := 7, generation := 0, haplotype := [0, 0], haplotype_set := true }]⟩ : World)
      { pid := 9, generation := 1, children := [7], haplotype := [0, 0],
        haplotype_set := true }
      [7] 0
      = .error "max must be at least 1" := by
  constructor
  · exact C10_allele_count_one_errors.1 0 (1/2) halfStream 0
  · exact C10_allele_count_one_errors.2
      ⟨[{ pid := 7, generation := 0, haplotype := [0, 0], haplotype_set := true }]⟩
      { pid := 9, generation := 1, children := [7], haplotype := [0, 0],
        haplotype_set := true }
      { pid := 7, generation := 0, haplotype := [0, 0], haplotype_set := true }
      1 0 halfStream 0 0 false 7 [] rfl rfl

/-!  ### The genotype distribution sums to one (C4)  -/

/-- Indexing the first `length` positions of a list recovers the list. -/
theorem range_map_getD (ps : List ℚ) :
    (List.range ps.length).map (fun j => ps.getD j 0) = ps := by
  induction ps with
  | nil => simp
  | cons p ps ih =>
    rw [List.length_cons, List.range_succ_eq_map, List.map_cons, List.map_map]
    have h : ((fun j => (p :: ps).getD j 0) ∘ Nat.succ) = (fun j => ps.getD j 0) := by
      funext j
      simp
    rw [h, ih]
    simp

/-- Unfolding one step of the partial sums of a list. -/
theorem idxSum_succ (ps : List ℚ) (n : ℕ) :
    idxSum ps (n+1) = idxSum ps n + ps.getD n 0 := by
  simp [idxSum, List.range_succ]

/-- The partial sum over the whole list is its sum. -/
theorem idxSum_length (ps : List ℚ) : idxSum ps ps.length = ps.sum := by
  rw [idxSum, range_map_getD]

/-- Sum of one row of the genotype distribution: the diagonal homozygote
term plus the heterozygote terms against all earlier alleles. -/
theorem genoRow_sum (theta : ℚ) (ps : List ℚ) (i : ℕ) :
    ((List.range (i+1)).map (fun j =>
      if i = j then theta * ps.getD i 0 + (1 - theta) * ps.getD i 0 * ps.getD i 0
      else (1 - theta) * 2 * ps.getD i 0 * ps.getD j 0)).sum
    = theta * ps.getD i 0
      + (1 - theta) * (ps.getD i 0 * ps.getD i 0 + 2 * ps.getD i 0 * idxSum ps i) := by
  rw [List.range_succ, List.map_append, List.sum_append]
  have h1 : (List.range i).map (fun j =>
      if i = j then theta * ps.getD i 0 + (1 - theta) * ps.getD i 0 * ps.getD i 0
      else (1 - theta) * 2 * ps.getD i 0 * ps.getD j 0)
      = (List.range i).map (fun j => (1 - theta) * 2 * ps.getD i 0 * ps.getD j 0) := by
    refine List.map_congr_left (fun j hj => ?_)
    have hji : j < i := List.mem_range.mp hj
    rw [if_neg (by omega)]
  rw [h1, List.sum_map_mul_left]
  simp only [List.map_cons, List.map_nil, List.sum_cons, List.sum_nil, add_zero]
  rw [if_true, idxSum]
  ring

/-- The total mass of `genoProbs` over the first `n` rows. -/
theorem genoProbs_sum_aux (theta : ℚ) (ps : List ℚ) :
    ∀ n, ((List.range n).flatMap (fun i =>
      (List.range (i+1)).map (fun j =>
        if i = j then theta * ps.getD i 0 + (1 - theta) * ps.getD i 0 * ps.getD i 0
        else (1 - theta) * 2 * ps.getD i 0 * ps.getD j 0))).sum
      = theta * idxSum ps n + (1 - theta) * (idxSum ps n)^2 := by
  intro n
  induction n with
  | zero => simp [idxSum]
  | succ n ih =>
    rw [List.range_succ, List.flatMap_append, List.sum_append, ih]
    simp only [List.flatMap_cons, List.flatMap_nil, List.append_nil]
    rw [genoRow_sum, idxSum_succ]
    ring

/-- The total mass of the genotype distribution in terms of the input sum. -/
theorem genoProbs_sum (theta : ℚ) (ps : List ℚ) :
    (genoProbs theta ps).sum = theta * ps.sum + (1 - theta) * ps.sum^2 := by
  rw [genoProbs, genoProbs_sum_aux, idxSum_length]

/-- C4: for every normalized allele distribution (entries in [0,1], summing
to 1) and every θ in [0,1], `calc_autosomal_genotype_probs` succeeds and its
genotype vector sums to exactly 1. -/
theorem C4_genotype_probs_sum_one (l : List ℚ) (theta : ℚ)
    (hl : ∀ p ∈ l, 0 ≤ p ∧ p ≤ 1) (hsum : l.sum = 1)
    (h0 : 0 ≤ theta) (h1 : theta ≤ 1) :
    ∃ v, calc_autosomal_genotype_probs l theta = .ok v ∧ v.sum = 1 := by
  have hneg : l.any (fun p => decide (p < 0)) = false := by
    simp only [List.any_eq_false, decide_eq_true_eq]
    intro p hp
    exact not_lt.mpr (hl p hp).1
  have hgt : l.any (fun p => decide (p > 1)) = false := by
    simp only [List.any_eq_false, decide_eq_true_eq]
    intro p hp
    exact not_lt.mpr (hl p hp).2
  have hmap : l.map (fun p => p / l.sum) = l := by
    rw [hsum]
    simp
  rw [calc_autosomal_genotype_probs]
  rw [hneg, hgt]
  simp only [Bool.or_self, Bool.false_eq_true, if_false]
  rw [if_neg (by push_neg; exact ⟨h0, h1⟩)]
  exact ⟨_, rfl, by rw [hmap, genoProbs_sum, hsum]; ring⟩

/-- C4 witness: the sum-to-one property at p = [1/2, 1/2], θ = 1/3. -/
theorem C4_genotype_probs_sum_one_witness :
    ∃ v, calc_autosomal_genotype_probs [1/2, 1/2] (1/3) = .ok v ∧ v.sum = 1 :=
  C4_genotype_probs_sum_one [1/2, 1/2] (1/3)
    (by
      intro p hp
      have hp2 : p = 1/2 := by simpa using hp
      rw [hp2]
      norm_num)
    (by norm_num) (by norm_num) (by norm_num)

/-- C2: for two individuals with pedigrees assigned but in different
pedigrees, `calculate_path_to` does NOT fail: it returns the empty path. -/
theorem C2_counterexample :
    calculate_path_to wEmpty 1 pedA (some pedB) = .ok [] := by
  rfl

/-- C2 (amended): `calculate_path_to` returns the empty path (no error) for
a cross-pedigree pair, and fails when the path from the pedigree root to
either endpoint cannot be found. -/
theorem C2_path_to (w : World) (root : ℕ) (a b : Individual)
    (ha : a.pedigree_id ≠ 0) (hb : b.pedigree_id ≠ 0) :
    (a.pedigree_id ≠ b.pedigree_id → calculate_path_to w root a (some b) = .ok []) ∧
    (a.pedigree_id = b.pedigree_id →
      find_path_from_root_to_dest w root a.pid = none →
      calculate_path_to w root a (some b)
        = .error "Could not find path between root and this") ∧
    (∀ p, a.pedigree_id = b.pedigree_id →
      find_path_from_root_to_dest w root a.pid = some p →
      find_path_from_root_to_dest w root b.pid = none →
      calculate_path_to w root a (some b)
        = .error "Could not find path between root and dest") := by
  refine ⟨?_, ?_, ?_⟩
  · intro hne
    simp [calculate_path_to, ha, hb, hne]
  · intro heq hfa
    simp [calculate_path_to, ha, hb, heq, hfa]
  · intro p heq hfa hfb
    simp [calculate_path_to, ha, hb, heq, hfa, hfb]

/-- C2 witness: the three branches of the amended path contract evaluated on
concrete individuals in the empty population. -/
theorem C2_path_to_witness :
    calculate_path_to wEmpty 7 pedA (some pedB) = .ok [] ∧
    calculate_path_to wEmpty 99 pedA
      (some { pid := 2, generation := 0, pedigree_id := 1 })
      = .error "Could not find path between root and this" ∧
    calculate_path_to wEmpty 1 pedA
      (some { pid := 2, generation := 0, pedigree_id := 1 })
      = .error "Could not find path between root and dest" := by
  refine ⟨?_, ?_, ?_⟩
  · exact (C2_path_to wEmpty 7 pedA pedB (by decide) (by decide)).1 (by decide)
  · exact (C2_path_to wEmpty 99 pedA _ (by decide) (by decide)).2.1 rfl rfl
  · exact (C2_path_to wEmpty 1 pedA _ (by decide) (by decide)).2.2 [1] rfl rfl rfl

/-!  ### List scaffolding for the sampler proofs  -/

/-- `modifyAt` keeps the length. -/
theorem modifyAt_length (l : List α) (j : ℕ) (f : α → α) :
    (modifyAt l j f).length = l.length := by
  induction l generalizing j with
  | nil => rfl
  | cons x xs ih =>
    cases j with
    | zero => rfl
    | succ j => simp [modifyAt, ih]

/-- Reading back the modified entry. -/
theorem modifyAt_getD_self (l : List α) (j : ℕ) (f : α → α) (d : α)
    (hj : j < l.length) : (modifyAt l j f).getD j d = f (l.getD j d) := by
  induction l generalizing j with
  | nil => simp at hj
  | cons x xs ih =>
    cases j with
    | zero => rfl
    | succ j =>
      simp only [modifyAt, List.getD_cons_succ]
      exact ih j (by simpa using hj)

/-- Reading an entry other than the modified one. -/
theorem modifyAt_getD_ne (l : List α) (j j' : ℕ) (f : α → α) (d : α)
    (h : j' ≠ j) : (modifyAt l j f).getD j' d = l.getD j' d := by
  induction l generalizing j j' with
  | nil => rfl
  | cons x xs ih =>
    cases j with
    | zero =>
      cases j' with
      | zero => exact absurd rfl h
      | succ j' => rfl
    | succ j =>
      cases j' with
      | zero => rfl
      | succ j' =>
        simp only [modifyAt, List.getD_cons_succ]
        exact ih j j' (by omega)

/-- Membership after `modifyAt`: either an old member or the image of one. -/
theorem mem_modifyAt (l : List α) (j : ℕ) (f : α → α) (x : α)
    (hx : x ∈ modifyAt l j f) : x ∈ l ∨ ∃ y ∈ l, x = f y := by
  induction l generalizing j with
  | nil => simp [modifyAt] at hx
  | cons a as ih =>
    cases j with
    | zero =>
      rcases List.mem_cons.mp hx with h | h
      · exact Or.inr ⟨a, List.mem_cons_self a as, h⟩
      · exact Or.inl (List.mem_cons_of_mem a h)
    | succ j =>
      rcases List.mem_cons.mp hx with h | h
      · exact Or.inl (h ▸ List.mem_cons_self a as)
      · rcases ih j h with h' | ⟨y, hy, hxy⟩
        · exact Or.inl (List.mem_cons_of_mem a h')
        · exact Or.inr ⟨y, List.mem_cons_of_mem a hy, hxy⟩

/-- Reading back a `set` entry in range. -/
theorem set_getD_self (l : List α) (j : ℕ) (a d : α) (hj : j < l.length) :
    (l.set j a).getD j d = a := by
  induction l generalizing j with
  | nil => simp at hj
  | cons x xs ih =>
    cases j with
    | zero => rfl
    | succ j =>
      simp only [List.set_cons_succ, List.getD_cons_succ]
      exact ih j (by simpa using hj)

/-- Reading a non-`set` entry. -/
theorem set_getD_ne (l : List α) (j j' : ℕ) (a d : α) (h : j' ≠ j) :
    (l.set j a).getD j' d = l.getD j' d := by
  induction l generalizing j j' with
  | nil => rfl
  | cons x xs ih =>
    cases j with
    | zero =>
      cases j' with
      | zero => exact absurd rfl h
      | succ j' => rfl
    | succ j =>
      cases j' with
      | zero => rfl
      | succ j' =>
        simp only [List.set_cons_succ, List.getD_cons_succ]
        exact ih j j' (by omega)

/-- `getD` out of range returns the default. -/
theorem getD_none_of_ge (l : List (Option α)) (j : ℕ) (h : l.length ≤ j) :
    l.getD j none = none := by
  induction l generalizing j with
  | nil => simp
  | cons x xs ih =>
    cases j with
    | zero => simp at h
    | succ j =>
      simp only [List.getD_cons_succ]
      exact ih j (by simpa using h)

/-- A non-null `getD` read is a member. -/
theorem getD_mem (l : List (Option α)) (j : ℕ) (a : α)
    (h : l.getD j none = some a) : some a ∈ l := by
  induction l generalizing j with
  | nil => simp at h
  | cons x xs ih =>
    cases j with
    | zero => exact List.mem_cons.mpr (Or.inl h.symm)
    | succ j => exact List.mem_cons_of_mem x (ih j h)

/-- A non-null `getD` read implies the index is in range. -/
theorem getD_some_lt (l : List (Option α)) (j : ℕ) (a : α)
    (h : l.getD j none = some a) : j < l.length := by
  by_contra hge
  rw [getD_none_of_ge l j (by omega)] at h
  exact Option.noConfusion h

theorem countSomes_nil : countSomes ([] : List (Option α)) = 0 := rfl

theorem countSomes_cons_none (l : List (Option α)) :
    countSomes (none :: l) = countSomes l := by
  simp [countSomes]

theorem countSomes_cons_some (a : α) (l : List (Option α)) :
    countSomes (some a :: l) = countSomes l + 1 := by
  simp [countSomes]

/-- Setting a null slot to non-null increments the non-null count. -/
theorem countSomes_set_some (l : List (Option α)) (j : ℕ) (a : α)
    (h : l.getD j none = none) (hj : j < l.length) :
    countSomes (l.set j (some a)) = countSomes l + 1 := by
  induction l generalizing j with
  | nil => simp at hj
  | cons x xs ih =>
    cases j with
    | zero =>
      simp only [List.getD_cons_zero] at h
      subst h
      simp [countSomes]
    | succ j =>
      simp only [List.getD_cons_succ] at h
      have := ih j h (by simpa using hj)
      cases x with
      | none => simpa [countSomes_cons_none] using this
      | some b => simpa [countSomes_cons_some] using this

/-- Mapping a slot in place keeps the non-null count. -/
theorem countSomes_modifyAt_map (l : List (Option α)) (j : ℕ) (u : α → α) :
    countSomes (modifyAt l j (Option.map u)) = countSomes l := by
  induction l generalizing j with
  | nil => rfl
  | cons x xs ih =>
    cases j with
    | zero =>
      cases x with
      | none => simp [modifyAt, countSomes_cons_none]
      | some a => simp [modifyAt, countSomes_cons_some]
    | succ j =>
      cases x with
      | none => simp [modifyAt, countSomes_cons_none, ih]
      | some a => simp [modifyAt, countSomes_cons_some, ih]

/-- A list with a non-null member has a positive non-null count. -/
theorem countSomes_pos_of_mem (l : List (Option α)) (a : α)
    (h : some a ∈ l) : 1 ≤ countSomes l := by
  induction l with
  | nil => simp at h
  | cons x xs ih =>
    rcases List.mem_cons.mp h with h' | h'
    · rw [← h', countSomes_cons_some]
      omega
    · cases x with
      | none => rw [countSomes_cons_none]; exact ih h'
      | some b => rw [countSomes_cons_some]; omega

/-- A positive non-null count produces a non-null member. -/
theorem countSomes_exists (l : List (Option α)) (h : 1 ≤ countSomes l) :
    ∃ a, some a ∈ l := by
  induction l with
  | nil => simp [countSomes] at h
  | cons x xs ih =>
    cases x with
    | none =>
      rw [countSomes_cons_none] at h
      rcases ih h with ⟨a, ha⟩
      exact ⟨a, List.mem_cons_of_mem none ha⟩
    | some a => exact ⟨a, List.mem_cons.mpr (Or.inl rfl)⟩

theorem countSomes_replicate (M : ℕ) :
    countSomes (List.replicate M (none : Option α)) = 0 := by
  induction M with
  | zero => rfl
  | succ M ih => simpa [List.replicate_succ, countSomes_cons_none] using ih

theorem countSomes_map_some (l : List α) : countSomes (l.map some) = l.length := by
  induction l with
  | nil => rfl
  | cons x xs ih => simpa [countSomes_cons_some] using ih

theorem FEvol_refl (f : List (Option Individual)) : FEvol f f :=
  fun _ fa h => ⟨fa, h, rfl, rfl, rfl, fun _ hc => hc⟩

theorem FEvol_trans {f₀ f₁ f₂ : List (Option Individual)}
    (h01 : FEvol f₀ f₁) (h12 : FEvol f₁ f₂) : FEvol f₀ f₂ := by
  intro j fa h
  rcases h01 j fa h with ⟨fb, hb, hp, hg, hf, hc⟩
  rcases h12 j fb hb with ⟨fc, hc', hp', hg', hf', hc''⟩
  exact ⟨fc, hc', hp'.trans hp, hg'.trans hg, hf'.trans hf,
    fun c hcm => hc'' c (hc c hcm)⟩

/-- Master specification of one pass of the sampler's inner loop: lengths
are preserved, existing fathers only accumulate children, all fathers have
generation `g` and no father of their own, the founders counter counts the
non-null father slots, the count never decreases, it is positive as soon as
some child was processed, and every processed child is linked to a father
present in the final fathers list. -/
theorem processChildren_spec (idxStream : ℕ → ℕ) (g : ℕ) :
    ∀ (kids fathers : List (Option Individual)) (nf np pos : ℕ),
    (∀ n, idxStream n < fathers.length) →
    (∀ f, some f ∈ fathers → f.generation = g ∧ f.father = none) →
    (processChildren idxStream g kids fathers nf np pos).fathers.length
        = fathers.length ∧
    FEvol fathers (processChildren idxStream g kids fathers nf np pos).fathers ∧
    (∀ f, some f ∈ (processChildren idxStream g kids fathers nf np pos).fathers →
      f.generation = g ∧ f.father = none) ∧
    (processChildren idxStream g kids fathers nf np pos).nf + countSomes fathers
      = nf + countSomes (processChildren idxStream g kids fathers nf np pos).fathers ∧
    countSomes fathers
      ≤ countSomes (processChildren idxStream g kids fathers nf np pos).fathers ∧
    ((∃ c, some c ∈ kids) →
      1 ≤ countSomes (processChildren idxStream g kids fathers nf np pos).fathers) ∧
    List.Forall₂ (ChildRel g (processChildren idxStream g kids fathers nf np pos).fathers)
      kids (processChildren idxStream g kids fathers nf np pos).kids := by
  intro kids
  induction kids with
  | nil =>
    intro fathers nf np pos hlen hg
    refine ⟨rfl, FEvol_refl _, hg, rfl, le_refl _, ?_, List.Forall₂.nil⟩
    rintro ⟨c, hc⟩
    simp at hc
  | cons k rest ih =>
    intro fathers nf np pos hlen hg
    cases k with
    | none =>
      obtain ⟨ihL, ihE, ihG, ihN, ihM, ihP, ihF⟩ := ih fathers nf np pos hlen hg
      simp only [processChildren]
      refine ⟨ihL, ihE, ihG, ihN, ihM, ?_,
        List.Forall₂.cons (by simp [ChildRel]) ihF⟩
      rintro ⟨c, hc⟩
      rcases List.mem_cons.mp hc with h | h
      · exact Option.noConfusion h
      · exact ihP ⟨c, h⟩
    | some c =>
      have hj : idxStream pos < fathers.length := hlen pos
      cases hf0 : fathers.getD (idxStream pos) none with
      | none =>
        -- the father slot is empty: a father is created
        set fresh : Individual := ⟨np, g, none, [], 0, [], false, false⟩ with hfresh
        set u : Individual → Individual :=
          fun f => { f with children := f.children ++ [c.pid] } with hu
        set f1 : List (Option Individual) :=
          fathers.set (idxStream pos) (some fresh) with hf1
        set f2 : List (Option Individual) :=
          modifyAt f1 (idxStream pos) (Option.map u) with hf2
        have hkey : processChildren idxStream g (some c :: rest) fathers nf np pos
            = { kids := some { c with father := some np }
                  :: (processChildren idxStream g rest f2 (nf + 1) (np + 1) (pos + 1)).kids
                fathers := (processChildren idxStream g rest f2 (nf + 1) (np + 1) (pos + 1)).fathers
                nf := (processChildren idxStream g rest f2 (nf + 1) (np + 1) (pos + 1)).nf
                nextPid := (processChildren idxStream g rest f2 (nf + 1) (np + 1) (pos + 1)).nextPid
                pos := (processChildren idxStream g rest f2 (nf + 1) (np + 1) (pos + 1)).pos } := by
          have hf0' : fathers[idxStream pos]?.getD none = none := by
            rw [← List.getD_eq_getElem?_getD]
            exact hf0
          have hset : (fathers.set (idxStream pos) (some fresh))[idxStream pos]?.getD none
              = some fresh := by
            rw [← List.getD_eq_getElem?_getD]
            exact set_getD_self _ _ _ _ hj
          simp [processChildren, hf0', hset, hf2, hf1, hu, hfresh]
        have hf1len : f1.length = fathers.length := by
          rw [hf1, List.length_set]
        have hf2len : f2.length = fathers.length := by
          rw [hf2, modifyAt_length, hf1len]
        have hf1get : f1.getD (idxStream pos) none = some fresh :=
          set_getD_self _ _ _ _ hj
        have hf2get : f2.getD (idxStream pos) none = some (u fresh) := by
          rw [hf2, modifyAt_getD_self _ _ _ _ (by rw [hf1len]; exact hj), hf1get]
          rfl
        have hg1 : ∀ f, some f ∈ f1 → f.generation = g ∧ f.father = none := by
          intro f hf
          rcases List.mem_or_eq_of_mem_set hf with h | h
          · exact hg f h
          · cases h
            exact ⟨rfl, rfl⟩
        have hg2 : ∀ f, some f ∈ f2 → f.generation = g ∧ f.father = none := by
          intro f hf
          rcases mem_modifyAt _ _ _ _ hf with h | ⟨y, hy, hxy⟩
          · exact hg1 f h
          · cases y with
            | none => exact Option.noConfusion hxy
            | some fy =>
              have hfy := hg1 fy hy
              have : f = u fy := by
                simpa using hxy
              rw [this, hu]
              exact hfy
        have hlen2 : ∀ n, idxStream n < f2.length := by
          rw [hf2len]; exact hlen
        have hcount2 : countSomes f2 = countSomes fathers + 1 := by
          rw [hf2, countSomes_modifyAt_map, hf1, countSomes_set_some _ _ _ hf0 hj]
        have hev : FEvol fathers f2 := by
          intro j' fa hfa
          by_cases hje : j' = idxStream pos
          · rw [hje, hf0] at hfa
            exact Option.noConfusion hfa
          · have heq : f2.getD j' none = fathers.getD j' none := by
              rw [hf2, modifyAt_getD_ne _ _ _ _ _ hje, hf1, set_getD_ne _ _ _ _ _ hje]
            exact ⟨fa, by rw [heq, hfa], rfl, rfl, rfl, fun _ h => h⟩
        obtain ⟨ihL, ihE, ihG, ihN, ihM, ihP, ihF⟩ :=
          ih f2 (nf + 1) (np + 1) (pos + 1) hlen2 hg2
        rw [hkey]
        dsimp only
        refine ⟨by rw [ihL, hf2len], FEvol_trans hev ihE, ihG, ?_, ?_, ?_, ?_⟩
        · omega
        · omega
        · intro _
          have h1 : 1 ≤ countSomes f2 := by omega
          omega
        · refine List.Forall₂.cons ?_ ihF
          rcases ihE (idxStream pos) (u fresh) hf2get with ⟨f3, hf3, hp3, hg3, _, hc3⟩
          refine Or.inr ⟨c, np, rfl, rfl, f3, idxStream pos, hf3, ?_, ?_, ?_⟩
          · rw [hp3, hu]
          · rw [hg3, hu]
          · exact hc3 c.pid (by simp [hu, hfresh])
      | some f₀ =>
        -- the father already exists
        set u : Individual → Individual :=
          fun f => { f with children := f.children ++ [c.pid] } with hu
        set f2 : List (Option Individual) :=
          modifyAt fathers (idxStream pos) (Option.map u) with hf2
        have hkey : processChildren idxStream g (some c :: rest) fathers nf np pos
            = { kids := some { c with father := some f₀.pid }
                  :: (processChildren idxStream g rest f2 nf np (pos + 1)).kids
                fathers := (processChildren idxStream g rest f2 nf np (pos + 1)).fathers
                nf := (processChildren idxStream g rest f2 nf np (pos + 1)).nf
                nextPid := (processChildren idxStream g rest f2 nf np (pos + 1)).nextPid
                pos := (processChildren idxStream g rest f2 nf np (pos + 1)).pos } := by
          have hf0' : fathers[idxStream pos]?.getD none = some f₀ := by
            rw [← List.getD_eq_getElem?_getD]
            exact hf0
          simp [processChildren, hf0', hf2, hu]
        have hf2len : f2.length = fathers.length := by
          rw [hf2, modifyAt_length]
        have hf2get : f2.getD (idxStream pos) none = some (u f₀) := by
          rw [hf2, modifyAt_getD_self _ _ _ _ hj, hf0]
          rfl
        have hg2 : ∀ f, some f ∈ f2 → f.generation = g ∧ f.father = none := by
          intro f hf
          rcases mem_modifyAt _ _ _ _ hf with h | ⟨y, hy, hxy⟩
          · exact hg f h
          · cases y with
            | none => exact Option.noConfusion hxy
            | some fy =>
              have hfy := hg fy hy
              have : f = u fy := by
                simpa using hxy
              rw [this, hu]
              exact hfy
        have hlen2 : ∀ n, idxStream n < f2.length := by
          rw [hf2len]; exact hlen
        have hcount2 : countSomes f2 = countSomes fathers := by
          rw [hf2, countSomes_modifyAt_map]
        have hev : FEvol fathers f2 := by
          intro j' fa hfa
          by_cases hje : j' = idxStream pos
          · subst hje
            have hfe : fa = f₀ := by
              rw [hfa] at hf0
              exact Option.some.inj hf0
            subst hfe
            refine ⟨u fa, by rw [hf2get], ?_, ?_, ?_, ?_⟩
            · simp [hu]
            · simp [hu]
            · simp [hu]
            · intro x hx
              simp [hu]
              exact Or.inl hx
          · have heq : f2.getD j' none = fathers.getD j' none := by
              rw [hf2, modifyAt_getD_ne _ _ _ _ _ hje]
            exact ⟨fa, by rw [heq, hfa], rfl, rfl, rfl, fun _ h => h⟩
        obtain ⟨ihL, ihE, ihG, ihN, ihM, ihP, ihF⟩ :=
          ih f2 nf np (pos + 1) hlen2 hg2
        rw [hkey]
        dsimp only
        refine ⟨by rw [ihL, hf2len], FEvol_trans hev ihE, ihG, ?_, ?_, ?_, ?_⟩
        · omega
        · omega
        · intro _
          have h1 : 1 ≤ countSomes f2 :=
            countSomes_pos_of_mem f2 (u f₀) (getD_mem _ _ _ hf2get)
          omega
        · refine List.Forall₂.cons ?_ ihF
          rcases ihE (idxStream pos) (u f₀) hf2get with ⟨f3, hf3, hp3, hg3, _, hc3⟩
          have hgen0 : f₀.generation = g := (hg f₀ (getD_mem _ _ _ hf0)).1
          refine Or.inr ⟨c, f₀.pid, rfl, rfl, f3, idxStream pos, hf3, ?_, ?_, ?_⟩
          · rw [hp3, hu]
          · rw [hg3, hu]
            exact hgen0
          · exact hc3 c.pid (by simp [hu])

/-- Filtered membership over `id` is non-null membership. -/
theorem mem_filterMap_id {l : List (Option α)} {a : α} :
    a ∈ l.filterMap id ↔ some a ∈ l := by
  simp [List.mem_filterMap]

/-- One loop iteration preserves the sentinel invariant while the loop is
still running. -/
theorem sampler_step_sentinelInv (idxStream : ℕ → ℕ) (M : ℕ)
    (hstream : ∀ n, idxStream n < M) (st : SamplerSt)
    (hinv : SentinelInv st) (hrun : 1 < st.foundersLeft) :
    SentinelInv (sampler_step idxStream M st) := by
  obtain ⟨hC, hP, hF⟩ := hinv
  have hlen : ∀ n, idxStream n < (List.replicate M (none : Option Individual)).length := by
    intro n
    simpa using hstream n
  have hg0 : ∀ f, some f ∈ (List.replicate M (none : Option Individual)) →
      f.generation = st.gen ∧ f.father = none := by
    intro f hf
    exact absurd (List.eq_of_mem_replicate hf) (by simp)
  obtain ⟨-, -, hG, hN, -, hPos, -⟩ :=
    processChildren_spec idxStream st.gen st.children (List.replicate M none) 0
      st.nextPid st.pos hlen hg0
  have hsome : ∃ c, some c ∈ st.children := by
    refine countSomes_exists st.children ?_
    omega
  have hpos := hPos hsome
  rw [countSomes_replicate] at hN
  refine ⟨?_, ?_, ?_⟩
  · show (processChildren idxStream st.gen st.children (List.replicate M none) 0
      st.nextPid st.pos).nf = countSomes (processChildren idxStream st.gen st.children
        (List.replicate M none) 0 st.nextPid st.pos).fathers
    omega
  · show 1 ≤ (processChildren idxStream st.gen st.children (List.replicate M none) 0
      st.nextPid st.pos).nf
    omega
  · intro f hf
    exact (hG f hf).2

/-- The sentinel loop only exits with the invariant intact and at most one
founder left. -/
theorem samplerLoop_sentinel (idxStream : ℕ → ℕ) (M : ℕ)
    (hstream : ∀ n, idxStream n < M) :
    ∀ (fuel : ℕ) (st st' : SamplerSt), SentinelInv st →
      samplerLoop idxStream M (-1) fuel st = (st', true) →
      SentinelInv st' ∧ st'.foundersLeft ≤ 1 := by
  intro fuel
  induction fuel with
  | zero =>
    intro st st' hinv h
    rw [samplerLoop] at h
    obtain ⟨h1, h2⟩ := Prod.mk.injEq .. |>.mp h
    subst h1
    have : loopCond (-1) st = false := by
      cases hb : loopCond (-1) st
      · rfl
      · rw [hb] at h2
        exact absurd h2 (by simp)
    have hle : ¬ 1 < st.foundersLeft := by
      simpa [loopCond] using this
    exact ⟨hinv, by omega⟩
  | succ fuel ih =>
    intro st st' hinv h
    rw [samplerLoop] at h
    by_cases hc : loopCond (-1) st
    · rw [if_pos hc] at h
      have h2 : 1 < st.foundersLeft := by
        simpa [loopCond] using hc
      exact ih _ _ (sampler_step_sentinelInv idxStream M hstream st hinv h2) h
    · rw [if_neg hc] at h
      obtain ⟨h1, -⟩ := Prod.mk.injEq .. |>.mp h
      subst h1
      have hle : ¬ 1 < st.foundersLeft := by
        simpa [loopCond] using hc
      exact ⟨hinv, by omega⟩

/-- The generation-zero slots are all live. -/
theorem countSomes_initChildren (M : ℕ) :
    countSomes ((List.range M).map (fun i =>
      some (⟨i+1, 0, none, [], 0, [], false, false⟩ : Individual))) = M := by
  rw [show ((List.range M).map (fun i =>
      some (⟨i+1, 0, none, [], 0, [], false, false⟩ : Individual)))
    = ((List.range M).map (fun i =>
      (⟨i+1, 0, none, [], 0, [], false, false⟩ : Individual))).map some from by
    rw [List.map_map]
    rfl]
  rw [countSomes_map_some, List.length_map, List.length_range]

/-- The sentinel invariant holds at generation zero. -/
theorem initSt_sentinelInv (M : ℕ) (hM : 1 ≤ M) : SentinelInv (initSt M) := by
  refine ⟨?_, by simpa [initSt] using hM, ?_⟩
  · show (initSt M).foundersLeft = countSomes (initSt M).children
    simp only [initSt]
    exact (countSomes_initChildren M).symm
  · intro f hf
    simp only [initSt, List.mem_map] at hf
    obtain ⟨i, -, hi⟩ := hf
    cases hi
    rfl

/-- C7: in sentinel mode with population size M > 1, whenever the sampler's
loop terminates — for every sequence of father draws — the returned founders
count is exactly 1 (never 0) and the final generation consists of exactly
one individual, whose father is null. -/
theorem C7_sentinel_terminates_one_founder (M : ℕ) (idxStream : ℕ → ℕ)
    (fuel : ℕ) (res : SamplerResult)
    (hM : 1 < M) (hstream : ∀ n, idxStream n < M)
    (hres : sample_geneology M (-1) idxStream fuel = .ok res)
    (hterm : res.terminated = true) :
    res.founders = 1 ∧ res.finalGen.length = 1 ∧
      ∀ x ∈ res.finalGen, x.father = none := by
  rw [sample_geneology, if_neg (by omega), if_neg (by norm_num)] at hres
  have hres' := Except.ok.inj hres
  subst hres'
  simp only at hterm ⊢
  have hloop : samplerLoop idxStream M (-1) fuel (initSt M)
      = ((samplerLoop idxStream M (-1) fuel (initSt M)).1, true) := by
    rw [← hterm]
  obtain ⟨⟨hC, hP, hF⟩, hle⟩ := samplerLoop_sentinel idxStream M hstream fuel
    (initSt M) _ (initSt_sentinelInv M (by omega)) hloop
  refine ⟨by omega, ?_, ?_⟩
  · show ((samplerLoop idxStream M (-1) fuel (initSt M)).1.children.filterMap id).length = 1
    have : countSomes (samplerLoop idxStream M (-1) fuel (initSt M)).1.children = 1 := by
      omega
    exact this ▸ rfl
  · intro x hx
    exact hF x (mem_filterMap_id.mp hx)

/-- C7 witness: the sentinel contract at M = 2 with the all-zeros draw
stream and fuel 2. -/
theorem C7_sentinel_terminates_one_founder_witness :
    demoRes.founders = 1 ∧ demoRes.finalGen.length = 1 ∧
      ∀ x ∈ demoRes.finalGen, x.father = none :=
  C7_sentinel_terminates_one_founder 2 (fun _ => 0) 2 demoRes (by omega)
    (by intro n; norm_num) (by rfl) (by rfl)

/-- Processed children map forward through one pass: every live child slot
corresponds to a processed child slot. -/
theorem forall₂_filterMap_fwd {g : ℕ} {F : List (Option Individual)}
    {kids out : List (Option Individual)}
    (h : List.Forall₂ (ChildRel g F) kids out) :
    ∀ c ∈ kids.filterMap id, ∃ c' ∈ out.filterMap id,
      ChildRel g F (some c) (some c') := by
  induction h with
  | nil =>
    intro c hc
    simp at hc
  | @cons a b as bs hab htail ih =>
    intro c hc
    rcases hab with ⟨ha, hb⟩ | ⟨c₀, fp, ha, hb, hw⟩
    · subst ha
      subst hb
      have hkc : (none :: as).filterMap (id : Option Individual → Option Individual)
          = as.filterMap id := by simp
      have hko : (none :: bs).filterMap (id : Option Individual → Option Individual)
          = bs.filterMap id := by simp
      rw [hkc] at hc
      obtain ⟨c', hc', hrel⟩ := ih c hc
      exact ⟨c', by rw [hko]; exact hc', hrel⟩
    · subst ha
      subst hb
      have hkc : (some c₀ :: as).filterMap (id : Option Individual → Option Individual)
          = c₀ :: as.filterMap id := by simp
      have hko : (some { c₀ with father := some fp } :: bs).filterMap
          (id : Option Individual → Option Individual)
          = { c₀ with father := some fp } :: bs.filterMap id := by simp
      rw [hkc] at hc
      rcases List.mem_cons.mp hc with hc' | hc'
      · subst hc'
        refine ⟨{ c with father := some fp }, ?_, Or.inr ⟨c, fp, rfl, rfl, hw⟩⟩
        rw [hko]
        exact List.mem_cons_self _ _
      · obtain ⟨c', hm, hrel⟩ := ih c hc'
        exact ⟨c', by rw [hko]; exact List.mem_cons_of_mem _ hm, hrel⟩

/-- Processed children map backward through one pass: every processed child
slot arose from a live child slot. -/
theorem forall₂_filterMap_bwd {g : ℕ} {F : List (Option Individual)}
    {kids out : List (Option Individual)}
    (h : List.Forall₂ (ChildRel g F) kids out) :
    ∀ c' ∈ out.filterMap id, ∃ c ∈ kids.filterMap id,
      ChildRel g F (some c) (some c') := by
  induction h with
  | nil =>
    intro c' hc'
    simp at hc'
  | @cons a b as bs hab htail ih =>
    intro c' hc'
    rcases hab with ⟨ha, hb⟩ | ⟨c₀, fp, ha, hb, hw⟩
    · subst ha
      subst hb
      have hko : (none :: bs).filterMap (id : Option Individual → Option Individual)
          = bs.filterMap id := by simp
      rw [hko] at hc'
      obtain ⟨c, hm, hrel⟩ := ih c' hc'
      have hkc : (none :: as).filterMap (id : Option Individual → Option Individual)
          = as.filterMap id := by simp
      exact ⟨c, by rw [hkc]; exact hm, hrel⟩
    · subst ha
      subst hb
      have hkc : (some c₀ :: as).filterMap (id : Option Individual → Option Individual)
          = c₀ :: as.filterMap id := by simp
      have hko : (some { c₀ with father := some fp } :: bs).filterMap
          (id : Option Individual → Option Individual)
          = { c₀ with father := some fp } :: bs.filterMap id := by simp
      rw [hko] at hc'
      rcases List.mem_cons.mp hc' with hh | hh
      · subst hh
        refine ⟨c₀, ?_, Or.inr ⟨c₀, fp, rfl, rfl, hw⟩⟩
        rw [hkc]
        exact List.mem_cons_self _ _
      · obtain ⟨c, hm, hrel⟩ := ih c' hh
        exact ⟨c, by rw [hkc]; exact List.mem_cons_of_mem _ hm, hrel⟩

/-- One loop iteration preserves the pedigree-link invariant. -/
theorem sampler_step_popInv (idxStream : ℕ → ℕ) (M : ℕ)
    (hstream : ∀ n, idxStream n < M) (st : SamplerSt)
    (hinv : PopInv st) : PopInv (sampler_step idxStream M st) := by
  obtain ⟨hdone, hcur⟩ := hinv
  have hlen : ∀ n, idxStream n < (List.replicate M (none : Option Individual)).length := by
    intro n
    simpa using hstream n
  have hg0 : ∀ f, some f ∈ (List.replicate M (none : Option Individual)) →
      f.generation = st.gen ∧ f.father = none := by
    intro f hf
    exact absurd (List.eq_of_mem_replicate hf) (by simp)
  obtain ⟨-, -, hG, -, -, -, hF⟩ :=
    processChildren_spec idxStream st.gen st.children (List.replicate M none) 0
      st.nextPid st.pos hlen hg0
  simp only [PopInv, sampler_step]
  constructor
  · intro x hx fp hfp
    rcases List.mem_append.mp hx with hxd | hxk
    · obtain ⟨f, hfmem, hpid, hgen, hchild⟩ := hdone x hxd fp hfp
      rcases hfmem with hf | hf
      · exact ⟨f, Or.inl (List.mem_append.mpr (Or.inl hf)), hpid, hgen, hchild⟩
      · obtain ⟨f', hf', hrel⟩ := forall₂_filterMap_fwd hF f hf
        rcases hrel with ⟨h1, -⟩ | ⟨c₀, fp₀, h1, h2, -⟩
        · exact Option.noConfusion h1
        · have hc₀ : f = c₀ := Option.some.inj h1
          subst hc₀
          have h2' : f' = { f with father := some fp₀ } := Option.some.inj h2
          refine ⟨f', Or.inl (List.mem_append.mpr (Or.inr hf')), ?_, ?_, ?_⟩
          · rw [h2', hpid]
          · rw [h2', hgen]
          · rw [h2']
            exact hchild
    · obtain ⟨c, hc, hrel⟩ := forall₂_filterMap_bwd hF x hxk
      rcases hrel with ⟨h1, -⟩ | ⟨c₀, fp₀, h1, h2, f, j, hfj, hpid, hgen, hcpid⟩
      · exact Option.noConfusion h1
      · have hc₀ : c = c₀ := Option.some.inj h1
        subst hc₀
        have h2' : x = { c with father := some fp₀ } := Option.some.inj h2
        have hfp₀ : fp₀ = fp := by
          have : x.father = some fp₀ := by rw [h2']
          rw [hfp] at this
          exact (Option.some.inj this).symm
        subst hfp₀
        refine ⟨f, Or.inr (mem_filterMap_id.mpr (getD_mem _ _ _ hfj)), hpid, ?_, ?_⟩
        · have hcg := (hcur c hc).2
          have hxg : x.generation = c.generation := by rw [h2']
          rw [hgen, hxg]
          omega
        · have hxp : x.pid = c.pid := by rw [h2']
          rw [hxp]
          exact hcpid
  · intro c hc
    have hm := mem_filterMap_id.mp hc
    obtain ⟨hgen, hfa⟩ := hG c hm
    exact ⟨hfa, by rw [hgen]⟩

/-- The sampler loop preserves the pedigree-link invariant. -/
theorem samplerLoop_popInv (idxStream : ℕ → ℕ) (M : ℕ) (G : ℤ)
    (hstream : ∀ n, idxStream n < M) :
    ∀ (fuel : ℕ) (st : SamplerSt), PopInv st →
      PopInv (samplerLoop idxStream M G fuel st).1 := by
  intro fuel
  induction fuel with
  | zero =>
    intro st h
    exact h
  | succ fuel ih =>
    intro st h
    rw [samplerLoop]
    by_cases hc : loopCond G st
    · rw [if_pos hc]
      exact ih _ (sampler_step_popInv idxStream M hstream st h)
    · rw [if_neg hc]
      exact h

/-- The generation-zero state satisfies the pedigree-link invariant. -/
theorem initSt_popInv (M : ℕ) : PopInv (initSt M) := by
  constructor
  · intro x hx
    simp [initSt] at hx
  · intro c hc
    have hm := mem_filterMap_id.mp hc
    simp only [initSt, List.mem_map] at hm
    obtain ⟨i, -, hi⟩ := hm
    cases hi
    exact ⟨rfl, rfl⟩

/-- C9: after the genealogy sampler runs, every individual in the returned
population with a non-null father points at an individual one generation
older whose children list contains it. -/
theorem C9_father_links (M : ℕ) (generations : ℤ) (idxStream : ℕ → ℕ)
    (fuel : ℕ) (res : SamplerResult)
    (hstream : ∀ n, idxStream n < M)
    (hres : sample_geneology M generations idxStream fuel = .ok res) :
    ∀ x ∈ res.population, ∀ fp, x.father = some fp →
      ∃ f ∈ res.population, f.pid = fp ∧ f.generation = x.generation + 1 ∧
        x.pid ∈ f.children := by
  rw [sample_geneology] at hres
  by_cases h1 : M ≤ 1
  · rw [if_pos h1] at hres
    exact absurd hres (by simp)
  rw [if_neg h1] at hres
  by_cases h2 : generations < -1 ∨ generations = 0
  · rw [if_pos h2] at hres
    exact absurd hres (by simp)
  rw [if_neg h2] at hres
  have hres' := Except.ok.inj hres
  subst hres'
  intro x hx fp hfp
  obtain ⟨hdone, hcur⟩ := samplerLoop_popInv idxStream M generations hstream fuel
    (initSt M) (initSt_popInv M)
  simp only at hx ⊢
  rcases List.mem_append.mp hx with hxd | hxc
  · obtain ⟨f, hfmem, hpid, hgen, hchild⟩ := hdone x hxd fp hfp
    refine ⟨f, List.mem_append.mpr ?_, hpid, hgen, hchild⟩
    rcases hfmem with hf | hf
    · exact Or.inl hf
    · exact Or.inr hf
  · have := (hcur x hxc).1
    rw [hfp] at this
    exact Option.noConfusion this

/-- C9 witness: the father-link property for the child with pid 1 in the
concrete run of the sampler at M = 2. -/
theorem C9_father_links_witness :
    ∃ f ∈ demoRes.population, f.pid = 3 ∧ f.generation = 0 + 1 ∧ 1 ∈ f.children :=
  C9_father_links 2 (-1) (fun _ => 0) 2 demoRes (by intro n; norm_num) (by rfl)
    ⟨1, 0, some 3, [], 0, [], false, false⟩ (by simp [demoRes]) 3 rfl

/-!  ### Rose-tree scaffolding for the meiotic-distance proof  -/

theorem RTree.size_pos (t : RTree) : 1 ≤ t.size := by
  cases t with
  | node u f =>
    rw [RTree.size]
    omega

theorem root_mem_pids (t : RTree) : t.root ∈ t.pids := by
  cases t with
  | node u f =>
    rw [RTree.root, RTree.pids]
    exact List.mem_cons_self _ _

mutual
theorem depthIn_mem_tree : ∀ (t : RTree) (a d : ℕ),
    RTree.depthIn a t = some d → a ∈ t.pids
  | .node u ks, a, d, h => by
    rw [RTree.depthIn] at h
    by_cases hu : u = a
    · rw [RTree.pids]
      exact hu ▸ List.mem_cons_self _ _
    · rw [if_neg hu] at h
      obtain ⟨dk, hdk, -⟩ := Option.map_eq_some'.mp h
      rw [RTree.pids]
      exact List.mem_cons_of_mem _ (depthIn_mem_forest ks a dk hdk)

theorem depthIn_mem_forest : ∀ (ks : RForest) (a d : ℕ),
    RForest.depthIn a ks = some d → a ∈ ks.pids
  | .fcons t ks, a, d, h => by
    rw [RForest.depthIn] at h
    rw [RForest.pids]
    cases ht : RTree.depthIn a t with
    | some dt =>
      exact List.mem_append.mpr (Or.inl (depthIn_mem_tree t a dt ht))
    | none =>
      rw [ht] at h
      exact List.mem_append.mpr (Or.inr (depthIn_mem_forest ks a d h))
end

theorem depthIn_none_tree (t : RTree) (a : ℕ) (h : a ∉ t.pids) :
    RTree.depthIn a t = none := by
  cases hd : RTree.depthIn a t with
  | none => rfl
  | some d => exact absurd (depthIn_mem_tree t a d hd) h

theorem depthIn_none_forest (ks : RForest) (a : ℕ) (h : a ∉ ks.pids) :
    RForest.depthIn a ks = none := by
  cases hd : RForest.depthIn a ks with
  | none => rfl
  | some d => exact absurd (depthIn_mem_forest ks a d hd) h

theorem memT_pids_sub : ∀ (ks : RForest) (k : RTree), RForest.MemT k ks →
    ∀ x ∈ k.pids, x ∈ ks.pids
  | .fcons t rest, k, h, x, hx => by
    rw [RForest.pids]
    rcases h with h | h
    · exact List.mem_append.mpr (Or.inl (h ▸ hx))
    · exact List.mem_append.mpr (Or.inr (memT_pids_sub rest k h x hx))

theorem memT_nodup : ∀ (ks : RForest) (k : RTree), ks.pids.Nodup →
    RForest.MemT k ks → k.pids.Nodup
  | .fcons t rest, k, hnd, h => by
    rw [RForest.pids] at hnd
    rcases h with h | h
    · exact h ▸ (List.Nodup.of_append_left hnd)
    · exact memT_nodup rest k (List.Nodup.of_append_right hnd) h

theorem memT_size : ∀ (ks : RForest) (k : RTree), RForest.MemT k ks →
    k.size ≤ ks.size
  | .fcons t rest, k, h => by
    rw [RForest.size]
    rcases h with h | h
    · subst h
      omega
    · have := memT_size rest k h
      omega

theorem memT_matches {w : World} {u : ℕ} : ∀ (ks : RForest) (k : RTree),
    matchesForestB w u ks = true → RForest.MemT k ks →
    matchesB w (some u) k = true
  | .fcons t rest, k, hm, h => by
    rw [matchesForestB, Bool.and_eq_true] at hm
    rcases h with h | h
    · exact h ▸ hm.1
    · exact memT_matches rest k hm.2 h

theorem mem_roots_memT {v : ℕ} : ∀ (ks : RForest), v ∈ ks.roots →
    ∃ k, RForest.MemT k ks ∧ k.root = v
  | .fnil, h => by
    rw [RForest.roots] at h
    exact absurd h (List.not_mem_nil v)
  | .fcons t rest, h => by
    rw [RForest.roots] at h
    rcases List.mem_cons.mp h with h | h
    · exact ⟨t, Or.inl rfl, h.symm⟩
    · obtain ⟨k, hk, hr⟩ := mem_roots_memT rest h
      exact ⟨k, Or.inr hk, hr⟩

theorem depthInF_of_memT {a d : ℕ} : ∀ (ks : RForest) (k : RTree),
    ks.pids.Nodup → RForest.MemT k ks → RTree.depthIn a k = some d →
    RForest.depthIn a ks = some d
  | .fcons t rest, k, hnd, hmem, hd => by
    rw [RForest.pids] at hnd
    rw [RForest.depthIn]
    rcases hmem with h | h
    · subst h
      rw [hd]
    · have ha : a ∈ rest.pids := memT_pids_sub rest k h a (depthIn_mem_tree k a d hd)
      have hat : a ∉ t.pids := by
        intro hat
        exact (List.disjoint_of_nodup_append hnd) hat ha
      rw [depthIn_none_tree t a hat]
      exact depthInF_of_memT rest k (List.Nodup.of_append_right hnd) h hd

/-- Bouncing off an already-visited non-target node leaves the state
unchanged. -/
theorem internal_visited (w : World) (a : ℕ) (f : ℕ) (n : ℕ) (s : DState)
    (hn : n ∈ s.visited) (hna : n ≠ a) : internal w a f n s = s := by
  cases f with
  | zero => rfl
  | succ f =>
    rw [internal, if_neg hna, if_pos hn]

theorem tick_dist_self (s : DState) (u : ℕ) (m : ℤ) :
    (tick s u m).dist u = s.dist u + m := by
  simp [tick]

theorem tick_dist_ne (s : DState) (u : ℕ) (m : ℤ) (v : ℕ) (h : v ≠ u) :
    (tick s u m).dist v = s.dist v := by
  simp [tick, h]

theorem tick_visited (s : DState) (u : ℕ) (m : ℤ) :
    (tick s u m).visited = s.visited := rfl

theorem tick_res (s : DState) (u : ℕ) (m : ℤ) : (tick s u m).res = s.res := rfl

/-- Specification of the neighbour loop of `meiosis_dist_tree_internal`:
given the specification of `internal` at fuel `f` as hypothesis, walking a
neighbour list whose non-parent entries are the roots of the matching kid
forest explores exactly that forest. -/
theorem processNbrs_spec (w : World) (a : ℕ) (f : ℕ)
    (hIH : ∀ (T : RTree) (par : Option ℕ) (s : DState),
      matchesB w par T = true → T.pids.Nodup →
      (∀ x, par = some x → x ∈ s.visited) →
      (∀ x, par = some x → x ∉ T.pids) →
      a ∉ s.visited →
      (∀ v ∈ T.pids, v ∉ s.visited) →
      (∀ v ∈ T.pids, v ≠ T.root → s.dist v = 0) →
      T.size ≤ f →
      ExploreOut a par T s (internal w a f T.root s)) :
    ∀ (ns : List ℕ) (ks : RForest) (u : ℕ) (par : Option ℕ) (m : ℤ) (s : DState),
      ns.filter (fun n => ¬ par = some n) = ks.roots →
      matchesForestB w u ks = true →
      ks.pids.Nodup →
      ks.size ≤ f →
      (∀ x, par = some x → x ∈ s.visited) →
      (∀ x, par = some x → x ∉ ks.pids) →
      u ∈ s.visited →
      a ∉ s.visited →
      (∀ v ∈ ks.pids, v ∉ s.visited) →
      (∀ v ∈ ks.pids, s.dist v = 0) →
      ExploreForestOut a u par ks m s (processNbrs (internal w a f) ns m s) := by
  intro ns
  induction ns with
  | nil =>
    intro ks u par m s hfil hks hnd hsz hpar hparout hu ha hvis hdist
    cases ks with
    | fnil =>
      rw [processNbrs]
      refine ⟨fun x hx => hx, fun x hx => Or.inl hx, ha, fun v _ _ _ => rfl, ?_,
        fun _ => rfl⟩
      intro d hd
      rw [RForest.depthIn] at hd
      exact Option.noConfusion hd
    | fcons t rest =>
      rw [List.filter_nil, RForest.roots] at hfil
      exact absurd hfil (by simp)
  | cons n rest ih =>
    intro ks u par m s hfil hks hnd hsz hpar hparout hu ha hvis hdist
    by_cases hpn : par = some n
    · -- the parent bounce: the traversal returns immediately
      have hfil' : rest.filter (fun n => ¬ par = some n) = ks.roots := by
        rw [List.filter_cons, if_neg (by simp [hpn])] at hfil
        exact hfil
      rw [processNbrs]
      have hna : n ≠ a := by
        intro he
        exact ha (he ▸ hpar n hpn)
      have hstep : internal w a f n (tick s n m) = tick s n m :=
        internal_visited w a f n (tick s n m) (hpar n hpn) hna
      rw [hstep]
      have hnnot : n ∉ ks.pids := hparout n hpn
      have hndist : ∀ v ∈ ks.pids, (tick s n m).dist v = 0 := by
        intro v hv
        rw [tick_dist_ne s n m v (fun he => hnnot (he ▸ hv))]
        exact hdist v hv
      obtain ⟨o1, o2, o3, o4, o5, o6⟩ := ih ks u par m (tick s n m) hfil' hks hnd hsz
        hpar hparout hu ha hvis hndist
      refine ⟨o1, o2, o3, ?_, o5, ?_⟩
      · intro v hvp hvpar hvu
        rw [o4 v hvp hvpar hvu]
        exact tick_dist_ne s n m v (fun he => hvpar (he ▸ hpn))
      · intro hdn
        rw [o6 hdn]
        rfl
    · -- a kid subtree is explored
      cases ks with
      | fnil =>
        exfalso
        rw [List.filter_cons, if_pos (by simp [hpn]), RForest.roots] at hfil
        exact absurd hfil (by simp)
      | fcons k ks' =>
        have hfil2 : n = k.root ∧ rest.filter (fun n => ¬ par = some n) = ks'.roots := by
          rw [List.filter_cons, if_pos (by simp [hpn]), RForest.roots] at hfil
          exact ⟨(List.cons.injEq _ _ _ _ ▸ hfil : _ ∧ _).1,
            (List.cons.injEq _ _ _ _ ▸ hfil : _ ∧ _).2⟩
        obtain ⟨hroot, hfil'⟩ := hfil2
        subst hroot
        rw [matchesForestB, Bool.and_eq_true] at hks
        have hkin : ∀ x ∈ k.pids, x ∈ RForest.pids (.fcons k ks') := by
          intro x hx
          rw [RForest.pids]
          exact List.mem_append.mpr (Or.inl hx)
        have hk'in : ∀ x ∈ ks'.pids, x ∈ RForest.pids (.fcons k ks') := by
          intro x hx
          rw [RForest.pids]
          exact List.mem_append.mpr (Or.inr hx)
        have hdisj : ∀ x ∈ k.pids, x ∉ ks'.pids := by
          intro x hx hx'
          have := hnd
          rw [RForest.pids] at this
          exact (List.disjoint_of_nodup_append this) hx hx'
        have hknd : k.pids.Nodup := by
          have := hnd
          rw [RForest.pids] at this
          exact this.of_append_left
        have hksz : k.size ≤ f := by
          have h1 : RForest.size (.fcons k ks') = k.size + ks'.size := rfl
          omega
        have hnk : k.root ∈ k.pids := root_mem_pids k
        have huk : u ∉ k.pids := fun hc => hvis u (hkin u hc) hu
        have hdist1root : (tick s k.root m).dist k.root = m := by
          rw [tick_dist_self, hdist k.root (hkin k.root hnk)]
          ring
        obtain ⟨e1, e2, e3, e4, e5, e6⟩ := hIH k (some u) (tick s k.root m) hks.1 hknd
          (fun x hx => (Option.some.inj hx) ▸ hu)
          (fun x hx => (Option.some.inj hx) ▸ huk)
          ha
          (fun v hv => hvis v (hkin v hv))
          (fun v hv hvr => by
            rw [tick_dist_ne s k.root m v hvr]
            exact hdist v (hkin v hv))
          hksz
        rw [processNbrs]
        obtain ⟨f1, f2, f3, f4, f5, f6⟩ := ih ks' u par m
          (internal w a f k.root (tick s k.root m)) hfil' hks.2
          (by
            have := hnd
            rw [RForest.pids] at this
            exact this.of_append_right)
          (by
            have h1 : RForest.size (.fcons k ks') = k.size + ks'.size := rfl
            have h2 := k.size_pos
            omega)
          (fun x hx => e1 x (hpar x hx))
          (fun x hx hm => hparout x hx (hk'in x hm))
          (e1 u hu)
          e3
          (fun v hv hm => by
            rcases e2 v hm with h | h
            · exact hvis v (hk'in v hv) h
            · exact hdisj v h hv)
          (fun v hv => by
            have hvk : v ∉ k.pids := fun hc => hdisj v hc hv
            have hvu : u ≠ v := by
              intro he
              exact hvis v (hk'in v hv) (he ▸ hu)
            rw [e4 v hvk (fun he => hvu (Option.some.inj he))]
            rw [tick_dist_ne s k.root m v (fun he => hvk (by rw [he]; exact hnk))]
            exact hdist v (hk'in v hv))
        refine ⟨?_, ?_, f3, ?_, ?_, ?_⟩
        · intro x hx
          exact f1 x (e1 x hx)
        · intro x hx
          rcases f2 x hx with h | h
          · rcases e2 x h with h' | h'
            · exact Or.inl h'
            · exact Or.inr (hkin x h')
          · exact Or.inr (hk'in x h)
        · intro v hvp hvpar hvu
          have hvk : v ∉ k.pids := fun hc => hvp (hkin v hc)
          have hvk' : v ∉ ks'.pids := fun hc => hvp (hk'in v hc)
          rw [f4 v hvk' hvpar hvu]
          rw [e4 v hvk (fun he => hvu (Option.some.inj he).symm)]
          exact tick_dist_ne s k.root m v (fun he => hvk (by rw [he]; exact hnk))
        · intro d hd
          rw [RForest.depthIn] at hd
          cases hdk : RTree.depthIn a k with
          | some dk =>
            rw [hdk] at hd
            have hddk : dk = d := Option.some.inj hd
            subst hddk
            have hak : a ∈ k.pids := depthIn_mem_tree k a dk hdk
            have hak' : a ∉ ks'.pids := fun hc => hdisj a hak hc
            rw [f6 (depthIn_none_forest ks' a hak')]
            rw [e5 dk hdk]
            rw [hdist1root]
          | none =>
            rw [hdk] at hd
            exact f5 d hd
        · intro hd
          rw [RForest.depthIn] at hd
          cases hdk : RTree.depthIn a k with
          | some dk =>
            rw [hdk] at hd
            exact Option.noConfusion hd
          | none =>
            rw [hdk] at hd
            rw [f6 hd, e6 hdk]
            rfl

/-- Correctness of `meiosis_dist_tree_internal` on a matching tree: entered
at the root of `T` with enough fuel, the traversal realizes `ExploreOut`. -/
theorem internal_spec (w : World) (a : ℕ) :
    ∀ (f : ℕ) (T : RTree) (par : Option ℕ) (s : DState),
      matchesB w par T = true → T.pids.Nodup →
      (∀ x, par = some x → x ∈ s.visited) →
      (∀ x, par = some x → x ∉ T.pids) →
      a ∉ s.visited →
      (∀ v ∈ T.pids, v ∉ s.visited) →
      (∀ v ∈ T.pids, v ≠ T.root → s.dist v = 0) →
      T.size ≤ f →
      ExploreOut a par T s (internal w a f T.root s) := by
  intro f
  induction f with
  | zero =>
    intro T par s _ _ _ _ _ _ _ hsz
    exact absurd hsz (by have := T.size_pos; omega)
  | succ f ihf =>
    intro T par s hm hnd hpar hparout ha hvis hdist hsz
    cases T with
    | node u ks =>
      by_cases hua : u = a
      · subst hua
        rw [show RTree.root (.node u ks) = u from rfl]
        rw [internal, if_pos rfl]
        refine ⟨fun x hx => hx, fun x hx => Or.inl hx, ha, fun v _ _ => rfl, ?_, ?_⟩
        · intro d hd
          rw [RTree.depthIn, if_pos rfl] at hd
          have h0 : (0 : ℕ) = d := Option.some.inj hd
          subst h0
          show s.dist u = s.dist (RTree.node u ks).root + ((0 : ℕ) : ℤ)
          rw [show RTree.root (.node u ks) = u from rfl]
          push_cast
          ring
        · intro hd
          rw [RTree.depthIn, if_pos rfl] at hd
          exact Option.noConfusion hd
      · have humem : u ∈ RTree.pids (.node u ks) := by
          rw [RTree.pids]
          exact List.mem_cons_self _ _
        have hu : u ∉ s.visited := hvis u humem
        have hkstail : ∀ v ∈ ks.pids, v ∈ RTree.pids (.node u ks) := by
          intro v hv
          rw [RTree.pids]
          exact List.mem_cons_of_mem _ hv
        have hnotu : u ∉ ks.pids := by
          have := hnd
          rw [RTree.pids, List.nodup_cons] at this
          exact this.1
        rw [show RTree.root (.node u ks) = u from rfl]
        rw [internal, if_neg hua, if_neg hu]
        show ExploreOut a par (RTree.node u ks) s
          (processNbrs (internal w a f) (neighborsOf w u)
            ((tick { s with visited := u :: s.visited } u 1).dist u)
            (tick { s with visited := u :: s.visited } u 1))
        rw [matchesB, Bool.and_eq_true, decide_eq_true_eq] at hm
        have hm1 := hm.1
        have hm2 := hm.2
        set s1 : DState := tick { s with visited := u :: s.visited } u 1 with hs1
        have hs1vis : s1.visited = u :: s.visited := rfl
        have hs1u : s1.dist u = s.dist u + 1 := by
          rw [hs1, tick_dist_self]
        have hs1ne : ∀ v, v ≠ u → s1.dist v = s.dist v := by
          intro v hv
          rw [hs1, tick_dist_ne _ _ _ _ hv]
        obtain ⟨F1, F2, F3, F4, F5, F6⟩ := processNbrs_spec w a f ihf
          (neighborsOf w u) ks u par (s1.dist u) s1 hm1 hm2
          (by
            have := hnd
            rw [RTree.pids, List.nodup_cons] at this
            exact this.2)
          (by
            have h1 : RTree.size (.node u ks) = ks.size + 1 := rfl
            omega)
          (fun x hx => by
            rw [hs1vis]
            exact List.mem_cons_of_mem _ (hpar x hx))
          (fun x hx hc => hparout x hx (hkstail x hc))
          (by
            rw [hs1vis]
            exact List.mem_cons_self _ _)
          (by
            rw [hs1vis]
            intro hc
            rcases List.mem_cons.mp hc with h | h
            · exact hua h.symm
            · exact ha h)
          (fun v hv => by
            rw [hs1vis]
            intro hc
            rcases List.mem_cons.mp hc with h | h
            · exact hnotu (h ▸ hv)
            · exact hvis v (hkstail v hv) h)
          (fun v hv => by
            have hvne : v ≠ u := fun he => hnotu (he ▸ hv)
            rw [hs1ne v hvne]
            exact hdist v (hkstail v hv) (fun he => hvne he))
        refine ⟨?_, ?_, F3, ?_, ?_, ?_⟩
        · intro x hx
          refine F1 x ?_
          rw [hs1vis]
          exact List.mem_cons_of_mem _ hx
        · intro x hx
          rcases F2 x hx with h | h
          · rw [hs1vis] at h
            rcases List.mem_cons.mp h with h' | h'
            · exact Or.inr (h' ▸ humem)
            · exact Or.inl h'
          · exact Or.inr (hkstail x h)
        · intro v hvp hvpar
          have hvu : v ≠ u := fun he => hvp (he ▸ humem)
          have hvk : v ∉ ks.pids := fun hc => hvp (hkstail v hc)
          rw [F4 v hvk hvpar hvu]
          exact hs1ne v hvu
        · intro d hd
          rw [RTree.depthIn, if_neg hua] at hd
          obtain ⟨dk, hdk, hdkd⟩ := Option.map_eq_some'.mp hd
          rw [F5 dk hdk, hs1u]
          rw [show RTree.root (.node u ks) = u from rfl]
          rw [← hdkd]
          push_cast
          ring
        · intro hd
          rw [RTree.depthIn, if_neg hua] at hd
          rw [F6 (Option.map_eq_none'.mp hd)]
          rfl

/-- With consistent links, a stored father pointer is mirrored by a
children-list entry. -/
theorem father_mem_children (w : World) (hwf : wfLinksB w = true) (v u : ℕ)
    (h : fatherOf w v = some u) : v ∈ childrenOf w u := by
  rw [fatherOf] at h
  cases hfind : w.find v with
  | none =>
    rw [hfind] at h
    exact Option.noConfusion h
  | some iv =>
    rw [hfind] at h
    have hfa : iv.father = some u := h
    have hmem : iv ∈ w.inds := List.mem_of_find?_eq_some hfind
    have hpid : iv.pid = v := by
      have := List.find?_some hfind
      simpa using this
    have hall := List.all_eq_true.mp hwf iv hmem
    rw [hfa] at hall
    have hall' : (childrenOf w u).contains iv.pid = true := hall
    rw [hpid] at hall'
    simpa using hall'

/-- With consistent links, a linked pid is among the traversal neighbours. -/
theorem linked_mem_neighbors (w : World) (hwf : wfLinksB w = true) (u v : ℕ)
    (h : linked w u v) : v ∈ neighborsOf w u := by
  rw [neighborsOf, List.mem_append]
  rcases h with h | h
  · left
    rw [h]
    exact List.mem_cons_self _ _
  · right
    exact father_mem_children w hwf v u h

/-- Any repeat-free father-child walk from the root of a matching tree to a
node `a` has length one more than the depth of `a` in the tree: on a tree,
every such walk realizes the unique path. -/
theorem pathdepth (w : World) (hwf : wfLinksB w = true) (a : ℕ) :
    ∀ (q : List ℕ) (T : RTree) (par : Option ℕ),
      matchesB w par T = true → T.pids.Nodup →
      q.Chain' (linked w) → q.head? = some T.root → q.getLast? = some a →
      q.Nodup → (∀ x, par = some x → x ∉ q) →
      RTree.depthIn a T = some (q.length - 1) := by
  intro q
  induction q with
  | nil =>
    intro T par _ _ _ hhead _ _ _
    exact absurd hhead (by simp)
  | cons x q' ih =>
    intro T par hm hnd hchain hhead hlast hqnd hpar
    have hx : x = T.root := by simpa using hhead
    subst hx
    cases q' with
    | nil =>
      have ha : T.root = a := by simpa using hlast
      cases T with
      | node u ks =>
        rw [RTree.depthIn, if_pos (show u = a from ha)]
        simp
    | cons y q'' =>
      have hchain2 := List.chain'_cons.mp hchain
      have hy : y ∈ neighborsOf w T.root :=
        linked_mem_neighbors w hwf _ _ hchain2.1
      cases T with
      | node u ks =>
        have hypar : ¬ par = some y := by
          intro hp
          exact hpar y hp (List.mem_cons_of_mem _ (List.mem_cons_self _ _))
        have hyfil : y ∈ (neighborsOf w u).filter (fun n => ¬ par = some n) :=
          List.mem_filter.mpr ⟨hy, by simpa using hypar⟩
        rw [matchesB, Bool.and_eq_true, decide_eq_true_eq] at hm
        rw [hm.1] at hyfil
        obtain ⟨k, hkmem, hkroot⟩ := mem_roots_memT ks hyfil
        have hndks : ks.pids.Nodup := by
          have := hnd
          rw [RTree.pids, List.nodup_cons] at this
          exact this.2
        have hunotk : u ∉ ks.pids := by
          have := hnd
          rw [RTree.pids, List.nodup_cons] at this
          exact this.1
        have hutail : u ∉ y :: q'' := by
          have := hqnd
          rw [List.nodup_cons] at this
          exact fun hc => this.1 hc
        have hdk : RTree.depthIn a k = some ((y :: q'').length - 1) := by
          refine ih k (some u) (memT_matches ks k hm.2 hkmem)
            (memT_nodup ks k hndks hkmem)
            (List.chain'_cons.mp hchain).2
            (by rw [hkroot]; rfl)
            (by
              have h1 := hlast
              rw [List.getLast?_cons_cons] at h1
              exact h1)
            (by
              have := hqnd
              rw [List.nodup_cons] at this
              exact this.2)
            (fun z hz hc => by
              have hzu : z = u := (Option.some.inj hz).symm
              exact hutail (hzu ▸ hc))
        have hamem : a ∈ y :: q'' := by
          have h1 := hlast
          rw [List.getLast?_cons_cons] at h1
          obtain ⟨hne, heq⟩ := List.mem_getLast?_eq_getLast
            (show a ∈ (y :: q'').getLast? from h1)
          exact heq ▸ List.getLast_mem hne
        have hua : u ≠ a := fun he => hutail (he ▸ hamem)
        rw [RTree.depthIn, if_neg hua]
        rw [depthInF_of_memT ks k hndks hkmem hdk]
        rw [Option.map_some']
        rw [List.length_cons, List.length_cons, List.length_cons]
        norm_num

/-- Main correctness of `meiosis_dist_tree` in the same-pedigree case: with
a spanning tree of the pedigree rooted at the destination and any
repeat-free father-child walk `q` from the destination to the source, the
traversal returns the edge count of `q`. -/
theorem meiosis_dist_tree_correct (w : World) (A B : Individual) (T : RTree)
    (q : List ℕ)
    (hwf : wfLinksB w = true) (hroot : T.root = B.pid)
    (hm : matchesB w none T = true) (hnd : T.pids.Nodup)
    (hsz : T.size ≤ w.inds.length + 1)
    (hA : A.pedigree_id ≠ 0) (hB : B.pedigree_id ≠ 0)
    (heq : A.pedigree_id = B.pedigree_id)
    (hq : IsLinkPath w q B.pid A.pid) :
    meiosis_dist_tree w A (some B) = .ok ((q.length : ℤ) - 1) := by
  obtain ⟨hchain, hhead, hlast, hqnd⟩ := hq
  have hqne : 1 ≤ q.length := by
    cases q with
    | nil => exact absurd hhead (by simp)
    | cons z zs => simp
  have hd : RTree.depthIn A.pid T = some (q.length - 1) :=
    pathdepth w hwf A.pid q T none hm hnd hchain (by rw [hroot]; exact hhead) hlast
      hqnd (fun x hx => Option.noConfusion hx)
  obtain ⟨-, -, -, -, hres, -⟩ := internal_spec w A.pid (w.inds.length + 1) T none
    dstate0 hm hnd (fun x hx => Option.noConfusion hx)
    (fun x hx => Option.noConfusion hx)
    (List.not_mem_nil _)
    (fun v _ => List.not_mem_nil _)
    (fun _ _ _ => rfl)
    hsz
  have hres' := hres (q.length - 1) hd
  rw [meiosis_dist_tree, if_neg hA]
  show (if B.pedigree_id = 0 then (.error "dest pedigree is not set" : Except String ℤ)
    else if A.pedigree_id ≠ B.pedigree_id then .ok (-1)
    else .ok ((internal w A.pid (w.inds.length + 1) B.pid dstate0).res))
    = .ok ((q.length : ℤ) - 1)
  rw [if_neg hB, if_neg (fun hne => hne heq)]
  rw [← hroot]
  rw [hres']
  have h0 : dstate0.dist T.root = 0 := rfl
  rw [h0]
  congr 1
  rw [Nat.cast_sub hqne]
  push_cast
  ring

/-- A father-child walk reversed is a father-child walk the other way. -/
theorem isLinkPath_reverse (w : World) (q : List ℕ) (x y : ℕ)
    (h : IsLinkPath w q x y) : IsLinkPath w q.reverse y x := by
  obtain ⟨hc, hh, hl, hn⟩ := h
  refine ⟨?_, ?_, ?_, by simpa using hn⟩
  · rw [List.chain'_reverse]
    refine hc.imp (fun a b hab => ?_)
    rcases hab with hab | hab
    · exact Or.inr hab
    · exact Or.inl hab
  · rw [List.head?_reverse]
    exact hl
  · rw [List.getLast?_reverse]
    exact hh

/-- C5: `meiosis_dist_tree` returns the number of parent-child edges of
any repeat-free father-child walk between the two individuals when they lie
in the same (tree-shaped) pedigree, returns −1 for a cross-pedigree pair,
and fails when either pedigree is unset or the destination is null. -/
theorem C5_meiosis_dist_contract :
    (∀ (w : World) (A B : Individual) (T : RTree) (q : List ℕ),
      wfLinksB w = true → T.root = B.pid → matchesB w none T = true →
      T.pids.Nodup → T.size ≤ w.inds.length + 1 →
      A.pedigree_id ≠ 0 → B.pedigree_id ≠ 0 → A.pedigree_id = B.pedigree_id →
      IsLinkPath w q B.pid A.pid →
      meiosis_dist_tree w A (some B) = .ok ((q.length : ℤ) - 1)) ∧
    (∀ (w : World) (A B : Individual),
      A.pedigree_id ≠ 0 → B.pedigree_id ≠ 0 → A.pedigree_id ≠ B.pedigree_id →
      meiosis_dist_tree w A (some B) = .ok (-1)) ∧
    (∀ (w : World) (A : Individual) (dest : Option Individual),
      A.pedigree_id = 0 →
      meiosis_dist_tree w A dest = .error "this pedigree is not set") ∧
    (∀ (w : World) (A : Individual), A.pedigree_id ≠ 0 →
      meiosis_dist_tree w A none = .error "dest is NULL") ∧
    (∀ (w : World) (A B : Individual), A.pedigree_id ≠ 0 → B.pedigree_id = 0 →
      meiosis_dist_tree w A (some B) = .error "dest pedigree is not set") := by
  refine ⟨?_, ?_, ?_, ?_, ?_⟩
  · intro w A B T q hwf hroot hm hnd hsz hA hB heq hq
    exact meiosis_dist_tree_correct w A B T q hwf hroot hm hnd hsz hA hB heq hq
  · intro w A B hA hB hne
    rw [meiosis_dist_tree, if_neg hA]
    show (if B.pedigree_id = 0 then (.error "dest pedigree is not set" : Except String ℤ)
      else if A.pedigree_id ≠ B.pedigree_id then .ok (-1)
      else .ok ((internal w A.pid (w.inds.length + 1) B.pid dstate0).res))
      = .ok (-1)
    rw [if_neg hB, if_pos hne]
  · intro w A dest hA
    cases dest <;> rw [meiosis_dist_tree, if_pos hA]
  · intro w A hA
    rw [meiosis_dist_tree, if_neg hA]
  · intro w A B hA hB
    rw [meiosis_dist_tree, if_neg hA]
    show (if B.pedigree_id = 0 then (.error "dest pedigree is not set" : Except String ℤ)
      else if A.pedigree_id ≠ B.pedigree_id then .ok (-1)
      else .ok ((internal w A.pid (w.inds.length + 1) B.pid dstate0).res))
      = .error "dest pedigree is not set"
    rw [if_pos hB]

/-- C5 witness: all branches of the contract on the three-member demo
pedigree G — C — GC. -/
theorem C5_meiosis_dist_contract_witness :
    meiosis_dist_tree wPed indG (some indGC) = .ok 2 ∧
    meiosis_dist_tree wPed pedA (some pedB) = .ok (-1) ∧
    meiosis_dist_tree wPed unsetInd (some indG) = .error "this pedigree is not set" ∧
    meiosis_dist_tree wPed indG none = .error "dest is NULL" ∧
    meiosis_dist_tree wPed indG (some unsetInd) = .error "dest pedigree is not set" := by
  refine ⟨?_, ?_, ?_, ?_, ?_⟩
  · have h := C5_meiosis_dist_contract.1 wPed indG indGC treeFromGC [3, 2, 1]
      (by decide) (by decide) (by decide) (by decide) (by decide)
      (by decide) (by decide) (by decide)
      ⟨List.chain'_cons.mpr ⟨Or.inl (by decide),
        List.chain'_cons.mpr ⟨Or.inl (by decide), List.chain'_singleton 1⟩⟩,
        by decide, by decide, by decide⟩
    norm_num at h
    exact h
  · exact C5_meiosis_dist_contract.2.1 wPed pedA pedB (by decide) (by decide) (by decide)
  · exact C5_meiosis_dist_contract.2.2.1 wPed unsetInd (some indG) (by decide)
  · exact C5_meiosis_dist_contract.2.2.2.1 wPed indG (by decide)
  · exact C5_meiosis_dist_contract.2.2.2.2 wPed indG unsetInd (by decide) (by decide)

/-- C6: `meiosis_dist_tree a a` is 0 for every individual with a pedigree
assigned, and `meiosis_dist_tree` is symmetric: cross-pedigree pairs give −1
both ways, and within one (tree-shaped) pedigree both directions return the
edge count of the connecting walk. -/
theorem C6_meiosis_dist_refl_symm :
    (∀ (w : World) (A : Individual), A.pedigree_id ≠ 0 →
      meiosis_dist_tree w A (some A) = .ok 0) ∧
    (∀ (w : World) (A B : Individual), A.pedigree_id ≠ 0 → B.pedigree_id ≠ 0 →
      A.pedigree_id ≠ B.pedigree_id →
      meiosis_dist_tree w A (some B) = meiosis_dist_tree w B (some A)) ∧
    (∀ (w : World) (A B : Individual) (TA TB : RTree) (q : List ℕ),
      wfLinksB w = true →
      TA.root = A.pid → matchesB w none TA = true → TA.pids.Nodup →
      TA.size ≤ w.inds.length + 1 →
      TB.root = B.pid → matchesB w none TB = true → TB.pids.Nodup →
      TB.size ≤ w.inds.length + 1 →
      A.pedigree_id ≠ 0 → B.pedigree_id ≠ 0 → A.pedigree_id = B.pedigree_id →
      IsLinkPath w q A.pid B.pid →
      meiosis_dist_tree w A (some B) = meiosis_dist_tree w B (some A)) := by
  refine ⟨?_, ?_, ?_⟩
  · intro w A hA
    rw [meiosis_dist_tree, if_neg hA]
    show (if A.pedigree_id = 0 then (.error "dest pedigree is not set" : Except String ℤ)
      else if A.pedigree_id ≠ A.pedigree_id then .ok (-1)
      else .ok ((internal w A.pid (w.inds.length + 1) A.pid dstate0).res))
      = .ok 0
    rw [if_neg hA, if_neg (fun hne => hne rfl)]
    rw [internal, if_pos rfl]
    rfl
  · intro w A B hA hB hne
    have hL : meiosis_dist_tree w A (some B) = .ok (-1) := by
      rw [meiosis_dist_tree, if_neg hA]
      show (if B.pedigree_id = 0 then (.error "dest pedigree is not set" : Except String ℤ)
        else if A.pedigree_id ≠ B.pedigree_id then .ok (-1)
        else .ok ((internal w A.pid (w.inds.length + 1) B.pid dstate0).res))
        = .ok (-1)
      rw [if_neg hB, if_pos hne]
    have hR : meiosis_dist_tree w B (some A) = .ok (-1) := by
      rw [meiosis_dist_tree, if_neg hB]
      show (if A.pedigree_id = 0 then (.error "dest pedigree is not set" : Except String ℤ)
        else if B.pedigree_id ≠ A.pedigree_id then .ok (-1)
        else .ok ((internal w B.pid (w.inds.length + 1) A.pid dstate0).res))
        = .ok (-1)
      rw [if_neg hA, if_pos (fun he => hne he.symm)]
    rw [hL, hR]
  · intro w A B TA TB q hwf hrootA hmA hndA hszA hrootB hmB hndB hszB hA hB heq hq
    have h1 : meiosis_dist_tree w A (some B) = .ok ((q.length : ℤ) - 1) := by
      have := meiosis_dist_tree_correct w A B TB q.reverse hwf hrootB hmB hndB hszB
        hA hB heq (isLinkPath_reverse w q A.pid B.pid hq)
      rw [List.length_reverse] at this
      exact this
    have h2 : meiosis_dist_tree w B (some A) = .ok ((q.length : ℤ) - 1) :=
      meiosis_dist_tree_correct w B A TA q hwf hrootA hmA hndA hszA
        hB hA heq.symm hq
    rw [h1, h2]

/-- C6 witness: reflexivity at C, cross-pedigree symmetry, and same-pedigree
symmetry between C and GC in the demo pedigree. -/
theorem C6_meiosis_dist_refl_symm_witness :
    meiosis_dist_tree wPed indC (some indC) = .ok 0 ∧
    meiosis_dist_tree wEmpty pedA (some pedB) = meiosis_dist_tree wEmpty pedB (some pedA) ∧
    meiosis_dist_tree wPed indC (some indGC) = meiosis_dist_tree wPed indGC (some indC) := by
  refine ⟨?_, ?_, ?_⟩
  · exact C6_meiosis_dist_refl_symm.1 wPed indC (by decide)
  · exact C6_meiosis_dist_refl_symm.2.1 wEmpty pedA pedB (by decide) (by decide) (by decide)
  · exact C6_meiosis_dist_refl_symm.2.2 wPed indC indGC treeFromC treeFromGC [2, 3]
      (by decide) (by decide) (by decide) (by decide) (by decide)
      (by decide) (by decide) (by decide) (by decide)
      (by decide) (by decide) (by decide)
      ⟨List.chain'_cons.mpr ⟨Or.inr (by decide), List.chain'_singleton 3⟩,
        by decide, by decide, by decide⟩

end Malan
